import Mathlib

/-! Verification of tclln, the tab-completion engine.

A shallow embedding of the completion code of `tclln.c`:

* the argument registry (`completion_table_add_command`, a `GTree` from command
  names to sorted `GList`s of argument strings),
* the buffer scanner and dispatcher (`completion_generate`),
* the three candidate generators (`completion_generate_tcl_procs`,
  `completion_generate_tcl_vars`, `completion_generate_args`),
* the session entry point (`completion`).

A C string is modelled by the list of its characters before the terminating
NUL; reading the string at its length yields `NUL`, as in C.  A `GList *` is a
`List` (the `NULL` pointer is the empty list).  The `GTree` is an association
list with at most one pair per key.  The Tcl interpreter is an oracle from the
script text to either a result list or a failure, together with the log of the
scripts that were evaluated.
-/

namespace Tclln

/-! ## C strings -/

/-- The content of a NUL-terminated C string. -/
abbrev CStr := List Char

/-- The terminator of a C string. -/
def NUL : Char := Char.ofNat 0

/-- The character `in_buf[i]`; at `i = strlen in_buf` this is the terminator. -/
def char_at (in_buf : CStr) (i : Nat) : Char := in_buf.getD i NUL

/-- The libc `isspace` in the "C" locale: space, `\t`, `\n`, `\v`, `\f`, `\r`. -/
def isspace (c : Char) : Bool := c.toNat == 32 || (9 ≤ c.toNat && c.toNat ≤ 13)

/-- The libc `strcmp` on string contents, compared as unsigned bytes; only the
sign of the result is specified by C, so the model returns `-1`, `0` or `1`. -/
def strcmp : CStr → CStr → Int
  | [], [] => 0
  | [], _ :: _ => -1
  | _ :: _, [] => 1
  | a :: as, b :: bs =>
    if a = b then strcmp as bs else if a.toNat < b.toNat then -1 else 1

/-- The libc `strncmp`: compares at most `n` leading characters. -/
def strncmp : CStr → CStr → Nat → Int
  | _, _, 0 => 0
  | [], [], _ + 1 => 0
  | [], _ :: _, _ + 1 => -1
  | _ :: _, [], _ + 1 => 1
  | a :: as, b :: bs, n + 1 =>
    if a = b then strncmp as bs n else if a.toNat < b.toNat then -1 else 1

/-- The order `g_list_sort` is called with: `strcmp a b <= 0`. -/
def str_le (a b : CStr) : Prop := strcmp a b ≤ 0

instance str_le_decidable : DecidableRel str_le := fun a b =>
  inferInstanceAs (Decidable (strcmp a b ≤ 0))

/-- The glib `g_list_sort (list, strcmp)`: a stable sort, ascending for the compare
function. -/
def g_list_sort (l : List CStr) : List CStr := List.insertionSort str_le l

/-! ## The argument registry -/

/-- The glib `GTree` keyed by `strcmp`, holding one `GList` of strings per key. -/
abbrev GTree := List (CStr × List CStr)

/-- The glib `g_tree_lookup`: the value stored under `key`, if any. -/
def g_tree_lookup : GTree → CStr → Option (List CStr)
  | [], _ => none
  | (k, v) :: rest, key => if strcmp k key = 0 then some v else g_tree_lookup rest key

/-- The glib `g_tree_insert`: a key already present has its value replaced. -/
def g_tree_insert : GTree → CStr → List CStr → GTree
  | [], key, value => [(key, value)]
  | (k, v) :: rest, key, value =>
    if strcmp k key = 0 then (k, value) :: rest else (k, v) :: g_tree_insert rest key value

/-- The glib `(GList *) g_tree_lookup (...)`: a missing key gives `NULL`, the empty list. -/
def lookup_list (t : GTree) (key : CStr) : List CStr := (g_tree_lookup t key).getD []

/-- The interpreter collaborator: `answer` maps a script to its result list
(`none` when `Tcl_Eval` does not return `TCL_OK`), `log` records the scripts
evaluated so far, oldest first. -/
structure Tcl_Interp where
  answer : CStr → Option (List CStr)
  log : List CStr

/-- The fields of `struct tclln_data` used by completion. -/
structure tclln_data where
  tcl_interp : Tcl_Interp
  completion_begin : CStr
  completion_list : List CStr
  completion_arg_table : GTree

/-- The loop of `completion_table_add_command` that prepends every string of the
NULL-terminated array to `arg_list`. -/
def prepend_all (arg_list : List CStr) : List CStr → List CStr
  | [] => arg_list
  | s :: rest => prepend_all (s :: arg_list) rest

/-- Source `completion_table_add_command`: the strings are prepended one by one,
the list is sorted with `strcmp`, and the tree entry of `command` is set to it. -/
def completion_table_add_command (tclln : tclln_data) (command : CStr)
    (arg_complete_list : List CStr) : tclln_data :=
  let arg_list := prepend_all [] arg_complete_list
  let arg_list := g_list_sort arg_list
  { tclln with
    completion_arg_table := g_tree_insert tclln.completion_arg_table command arg_list }

/-! ## The buffer scanner -/

/-- One round of the nesting counter of `completion_generate`: `+1` on a closing
marker, `-1` on an opening marker. -/
def brace_step (current : Char) (brace_count : Int) : Int :=
  let brace_count := if current = ']' then brace_count + 1 else brace_count
  let brace_count := if current = '}' then brace_count + 1 else brace_count
  let brace_count := if current = '[' then brace_count - 1 else brace_count
  let brace_count := if current = '{' then brace_count - 1 else brace_count
  brace_count

/-- The backward walk of `completion_generate`.  The first argument is
`pos_tmp + 1`; the value is `pos_tmp + 1` when the loop is left, either by
`break` or because `pos_tmp` reached `-1`. -/
def backscan (in_buf : CStr) : Nat → Int → Nat
  | 0, _ => 0
  | pos_tmp + 1, brace_count =>
    let current := char_at in_buf pos_tmp
    let brace_count := brace_step current brace_count
    if brace_count < 0 then pos_tmp + 1 else backscan in_buf pos_tmp brace_count

/-- The loop `while (isspace (in_buf[pos_cmd]) && (in_buf[pos_cmd] != '\0')) pos_cmd++;`
run on the string that starts at `in_buf + pos_cmd`. -/
def skip_space : CStr → Nat → Nat
  | [], pos_cmd => pos_cmd
  | c :: rest, pos_cmd =>
    if isspace c && c != NUL then skip_space rest (pos_cmd + 1) else pos_cmd

/-- The loop `while ((!isspace (in_buf[pos_cmd + len_cmd])) && (in_buf[pos_cmd + len_cmd] != '\0')) len_cmd++;`
run on the string that starts at `in_buf + pos_cmd + len_cmd`. -/
def token_len : CStr → Nat → Nat
  | [], len_cmd => len_cmd
  | c :: rest, len_cmd =>
    if !isspace c && c != NUL then token_len rest (len_cmd + 1) else len_cmd

/-- The loop `while ((!isspace (in_buf[pos_start])) && (pos_start > pos_cmd)) pos_start--;`
started at the third argument. -/
def scan_back (in_buf : CStr) (pos_cmd : Nat) : Nat → Nat
  | 0 => 0
  | pos_start + 1 =>
    if !isspace (char_at in_buf (pos_start + 1)) && decide (pos_start + 1 > pos_cmd)
    then scan_back in_buf pos_cmd pos_start
    else pos_start + 1

/-- The value of `pos_cmd` right after the backward walk (`pos_tmp + 1`): the
start of the fragment being composed. -/
def com_start (in_buf : CStr) : Nat := backscan in_buf in_buf.length 0

/-- The locals of `completion_generate` once the "find out what to complete" part
has run. -/
structure Scan where
  pos_cmd : Nat
  len_cmd : Nat
  pos_start : Nat
  str_cmd : CStr
  str_base : CStr
  deriving DecidableEq, Repr

/-- The "find out what to complete" part of `completion_generate` that follows
the backward walk; the first argument is the value of `pos_cmd` the walk left. -/
def scan_at (pos_cmd : Nat) (in_buf : CStr) : Scan :=
  let pos_start := in_buf.length
  let pos_cmd := skip_space (in_buf.drop pos_cmd) pos_cmd
  let len_cmd := token_len (in_buf.drop pos_cmd) 0
  let str_cmd := (in_buf.drop pos_cmd).take len_cmd
  let pos_start := scan_back in_buf pos_cmd pos_start
  let pos_start := if pos_start > pos_cmd then pos_start + 1 else pos_start
  let str_base := in_buf.drop pos_start
  { pos_cmd := pos_cmd, len_cmd := len_cmd, pos_start := pos_start,
    str_cmd := str_cmd, str_base := str_base }

/-- The "find out what to complete" part of `completion_generate`. -/
def scan (in_buf : CStr) : Scan := scan_at (com_start in_buf) in_buf

/-- The branch `completion_generate` takes: it returns early without generating
(`abort`), completes commands and procs on `str_cmd` and truncates at `pos_cmd`
(`command`), completes variables on the text after the `$` and truncates right
after the `$` (`variable`; `str_cmd` is the command token the scan found, which
this branch does not use), or completes arguments of `str_cmd` on `str_base` and
truncates at `pos_start` (`argument`). -/
inductive Context where
  | abort
  | command (str_cmd : CStr) (pos_cmd : Nat)
  | variable (str_cmd str_base : CStr) (pos_start : Nat)
  | argument (str_cmd str_base : CStr) (pos_start : Nat)
  deriving DecidableEq, Repr

/-- The if-chain of `completion_generate` that follows the scan. -/
def classify_scan (s : Scan) : Context :=
  if s.pos_start = s.pos_cmd ∧ s.len_cmd = 0 then Context.abort
  else if s.pos_start = s.pos_cmd ∧ s.str_cmd.headD NUL ≠ '$' then
    Context.command s.str_cmd s.pos_cmd
  else if s.str_base.headD NUL = '$' then
    let str_base := s.str_base.drop 1
    let pos_start := s.pos_start + 1
    if str_base.headD NUL = NUL then Context.abort
    else Context.variable s.str_cmd str_base pos_start
  else Context.argument s.str_cmd s.str_base s.pos_start

/-- The branch `completion_generate` takes on the buffer `in_buf`. -/
def classify (in_buf : CStr) : Context := classify_scan (scan in_buf)

/-! ## The candidate generators -/

/-- The Tcl `Tcl_Eval`: the script is logged and answered by the oracle. -/
def Tcl_Eval (interp : Tcl_Interp) (script : CStr) : Tcl_Interp × Option (List CStr) :=
  ({ interp with log := interp.log ++ [script] }, interp.answer script)

/-- Source `completion_add_tcl_result`: every element of the interpreter result is
prepended to `res_list`. -/
def completion_add_tcl_result (result : List CStr) (res_list : List CStr) : List CStr :=
  prepend_all res_list result

/-- Source `completion_generate_tcl_vars`: one `info vars` query. -/
def completion_generate_tcl_vars (interp : Tcl_Interp) (res_list : List CStr) (base : CStr) :
    Tcl_Interp × List CStr :=
  let tcl_command := "info vars ".toList ++ base ++ "*\n".toList
  match Tcl_Eval interp tcl_command with
  | (interp, some result) => (interp, completion_add_tcl_result result res_list)
  | (interp, none) => (interp, res_list)

/-- Source `completion_generate_tcl_procs`: an `info commands` query, then an
`info procs` query. -/
def completion_generate_tcl_procs (interp : Tcl_Interp) (res_list : List CStr) (base : CStr) :
    Tcl_Interp × List CStr :=
  let tcl_command := "info commands ".toList ++ base ++ "*\n".toList
  let (interp, res_list) :=
    match Tcl_Eval interp tcl_command with
    | (interp, some result) => (interp, completion_add_tcl_result result res_list)
    | (interp, none) => (interp, res_list)
  let tcl_command := "info procs ".toList ++ base ++ "*\n".toList
  match Tcl_Eval interp tcl_command with
  | (interp, some result) => (interp, completion_add_tcl_result result res_list)
  | (interp, none) => (interp, res_list)

/-- The `for` loop of `completion_generate_args`: an element whose first `len`
characters differ from `base` is skipped, the others are prepended. -/
def args_loop (base : CStr) (len : Nat) (candidates : List CStr) : List CStr → List CStr
  | [] => candidates
  | elem :: rest =>
    if strncmp elem base len ≠ 0 then args_loop base len candidates rest
    else args_loop base len (elem :: candidates) rest

/-- The key `completion_generate_args` looks up: a leading `::` is removed from
a command longer than two characters. -/
def lookup_key (command : CStr) : CStr :=
  if command.length > 2 ∧ char_at command 0 = ':' ∧ char_at command 1 = ':' then
    command.drop 2
  else command

/-- Source `completion_generate_args`. -/
def completion_generate_args (arg_table : GTree) (res_list : List CStr)
    (command base : CStr) : List CStr :=
  let command := lookup_key command
  let arg_list := lookup_list arg_table command
  if arg_list = [] then res_list
  else
    let candidates := res_list
    let len := base.length
    if len ≤ 0 then res_list
    else args_loop base len candidates arg_list

/-- Source `completion_generate`: the candidate list is reset, the buffer held in
`completion_begin` is scanned, one generator runs and `completion_begin` is
truncated to the part of the buffer that is kept. -/
def completion_generate (tclln : tclln_data) : tclln_data :=
  let tclln := { tclln with completion_list := [] }
  match classify tclln.completion_begin with
  | Context.abort => tclln
  | Context.command str_cmd pos_cmd =>
    let r := completion_generate_tcl_procs tclln.tcl_interp tclln.completion_list str_cmd
    { tclln with
      tcl_interp := r.1, completion_list := r.2,
      completion_begin := tclln.completion_begin.take pos_cmd }
  | Context.variable _ str_base pos_start =>
    let r := completion_generate_tcl_vars tclln.tcl_interp tclln.completion_list str_base
    { tclln with
      tcl_interp := r.1, completion_list := r.2,
      completion_begin := tclln.completion_begin.take pos_start }
  | Context.argument str_cmd str_base pos_start =>
    { tclln with
      completion_list :=
        completion_generate_args tclln.completion_arg_table tclln.completion_list str_cmd str_base,
      completion_begin := tclln.completion_begin.take pos_start }

/-- The `while` loop of `completion`: every candidate is appended to a copy of
`completion_begin` and handed to `linenoiseAddCompletion`. -/
def fill_completion (completion_begin : CStr) : List CStr → List CStr
  | [] => []
  | data :: next => (completion_begin ++ data) :: fill_completion completion_begin next

/-- Source `completion`, the callback of the line editor.  The first argument is
the global `tclln_completion` (`none` for `NULL`); the result is the new state
and the lines added to `linenoise_completion`, in the order they are added. -/
def completion (tclln_completion : Option tclln_data) (input_buffer : CStr) :
    Option tclln_data × List CStr :=
  match tclln_completion with
  | none => (none, [])
  | some tclln =>
    if strcmp input_buffer [] = 0 then (some tclln, [])
    else
      let tclln := { tclln with completion_begin := input_buffer }
      let tclln := completion_generate tclln
      let tclln := { tclln with completion_list := g_list_sort tclln.completion_list }
      if tclln.completion_list = [] then (some tclln, [])
      else (some tclln, fill_completion tclln.completion_begin tclln.completion_list)

/-! ## Vocabulary of the specification -/

/-- An opening marker, `[` or `{`. -/
def is_opener (c : Char) : Bool := c == '[' || c == '{'

/-- A closing marker, `]` or `}`. -/
def is_closer (c : Char) : Bool := c == ']' || c == '}'

/-- The number of opening markers of a string. -/
def openers (s : CStr) : Nat := s.countP is_opener

/-- The number of closing markers of a string. -/
def closers (s : CStr) : Nat := s.countP is_closer

/-- The suffix `in_buf[i..]` contains more openers than closers. -/
def more_openers (in_buf : CStr) (i : Nat) : Prop :=
  closers (in_buf.drop i) < openers (in_buf.drop i)

instance more_openers_decidable (in_buf : CStr) (i : Nat) : Decidable (more_openers in_buf i) :=
  inferInstanceAs (Decidable (closers (in_buf.drop i) < openers (in_buf.drop i)))

/-- The offset at which `completion_generate` truncates the buffer: the
`replacementStart` of the specification (0 when the scan aborts, where nothing
is truncated). -/
def Context.replacement_start : Context → Nat
  | Context.abort => 0
  | Context.command _ pos_cmd => pos_cmd
  | Context.variable _ _ pos_start => pos_start
  | Context.argument _ _ pos_start => pos_start

/-- The same context with its offset moved right by `n`. -/
def Context.shift (n : Nat) : Context → Context
  | Context.abort => Context.abort
  | Context.command str_cmd pos_cmd => Context.command str_cmd (n + pos_cmd)
  | Context.variable str_cmd str_base pos_start => Context.variable str_cmd str_base (n + pos_start)
  | Context.argument str_cmd str_base pos_start => Context.argument str_cmd str_base (n + pos_start)

/-- An empty session around a registry: no candidates, an interpreter that
fails every query. -/
def session_of (arg_table : GTree) : tclln_data :=
  { tcl_interp := { answer := fun _ => none, log := [] },
    completion_begin := [], completion_list := [], completion_arg_table := arg_table }

/-- The registry of the specification's examples: `string` registered with
`map`, `match` and `length`. -/
def string_session : tclln_data :=
  completion_table_add_command (session_of []) "string".toList
    ["map".toList, "match".toList, "length".toList]

/-- The same scan with its two offsets moved right by `n`. -/
def Scan.shift (n : Nat) (s : Scan) : Scan :=
  { s with pos_cmd := n + s.pos_cmd, pos_start := n + s.pos_start }

/-- A registry in which `foo` is registered with `bar`. -/
def foo_session : tclln_data :=
  completion_table_add_command (session_of []) "foo".toList ["bar".toList]

/-- What the candidates of a context are generated from: the offset is dropped,
the command token is kept only where the generator reads it, and in Argument
context it is replaced by the key that is looked up. -/
def Context.source : Context → Context
  | Context.abort => Context.abort
  | Context.command str_cmd _ => Context.command str_cmd 0
  | Context.variable _ str_base _ => Context.variable [] str_base 0
  | Context.argument str_cmd str_base _ => Context.argument (lookup_key str_cmd) str_base 0

/-! ## Script-invoked registration and the seeded table -/

/-- The Tcl return code `TCL_OK`. -/
def TCL_OK : Int := 0

/-- The Tcl return code `TCL_ERROR`. -/
def TCL_ERROR : Int := 1

/-- The object handed to `Tcl_SetObjResult`: a string or a boolean. -/
inductive Tcl_Obj where
  | string (s : CStr)
  | boolean (b : Bool)
  deriving DecidableEq, Repr

/-- What a call of `tcl_completion_add_command` leaves behind: the return code,
the interpreter result it set (`none` when it set none) and the client data. -/
structure Tcl_Return where
  code : Int
  result : Option Tcl_Obj
  client_data : Option tclln_data

/-- Source `tcl_completion_add_command`.  `objv` holds the string forms of the
`objc` words of the call, `client_data` is `none` for `NULL`; `malloc` is taken
to succeed. -/
def tcl_completion_add_command (client_data : Option tclln_data) (objv : List CStr) :
    Tcl_Return :=
  let objc := objv.length
  if objc < 3 then
    { code := TCL_ERROR,
      result := some (Tcl_Obj.string
        "wrong number of arguments: expeted at least command name and 1 possible argument".toList),
      client_data := client_data }
  else
    let command_name := objv.getD 1 []
    match client_data with
    | none => { code := TCL_ERROR, result := none, client_data := none }
    | some tclln =>
      let arg_list := (List.range (objc - 2)).map (fun i => objv.getD (2 + i) [])
      let tclln := completion_table_add_command tclln command_name arg_list
      { code := TCL_OK, result := some (Tcl_Obj.boolean true), client_data := some tclln }

/-- A NULL-terminated array of string literals. -/
def strs (l : List String) : List CStr := l.map String.toList

/-- The calls of `completion_table_add_defaults`, in source order: command name
and argument array of each. -/
def default_table : List (CStr × List CStr) :=
  [
    ("after".toList,
     strs ["cancel", "idle", "info"]),
    ("array".toList,
     strs ["anymore", "donesearch", "exists", "get", "names", "nextelement", "set", "size",
       "startsearch", "statistics", "unset"]),
    ("binary".toList,
     strs ["decode", "encode", "format", "scan", "base64", "hex", "uuencode", "-maxlen",
       "-wrapchar", "-strict"]),
    ("chan".toList,
     strs ["blocked", "close", "configure", "copy", "create", "current", "end", "eof", "event",
       "flush", "gets", "names", "pending", "pipe", "pop", "postevent", "push", "puts", "read",
       "seek", "start", "tell", "truncate", "-blocking", "-buffering", "-buffersize",
       "-encoding", "-eofchar", "-eofchar", "-nonewline", "-translation"]),
    ("chan".toList,
     strs ["add", "clicks", "format", "microseconds", "milliseconds", "scan", "seconds", "-base",
       "-format", "-gmt", "-locale", "-timezone"]),
    ("dict".toList,
     strs ["append", "create", "exists", "filter", "key", "script", "value", "for", "get",
       "incr", "info", "keys", "lappend", "map", "merge", "remove", "replace", "set", "size",
       "unset", "update", "values", "with"]),
    ("encoding".toList,
     strs ["convertfrom", "convertto", "dirs", "names", "system"]),
    ("fconfigure".toList,
     strs ["-blocking", "-buffering", "-buffersize", "-encoding", "-eofchar", "-eofchar",
       "-translation", "-translation"]),
    ("fcopy".toList,
     strs ["-size", "-command"]),
    ("file".toList,
     strs ["atime", "attributes", "channels", "copy", "-force", "dirname", "executable",
       "exists", "extension", "isdirectory", "isfile", "join", "link", "lstat", "mkdir", "mtime",
       "nativename", "normalize", "owned", "pathtype", "readable", "readlink", "rename",
       "rootname", "separator", "size", "split", "stat", "system", "tail", "tempfile", "type",
       "volumes", "writable"]),
    ("fileevent".toList,
     strs ["readable", "writeable"]),
    ("glob".toList,
     strs ["-directory", "-join", "-nocomplain", "-path", "-tails", "-types"]),
    ("history".toList,
     strs ["add", "change", "clear", "event", "info", "keep", "nextid", "redo"]),
    ("info".toList,
     strs ["args", "body", "class", "cmdcount", "commands", "complete", "coroutine", "default",
       "errorstack", "exists", "frame", "function", "globals", "hostname", "level", "library",
       "loaded", "locals", "nameofexecutable", "object", "patchlevel", "procs", "script",
       "sharedlibextension", "tclversion", "vars"]),
    ("interp".toList,
     strs ["alias", "aliases", "bgerror", "cancel", "create", "debug", "delete", "eval",
       "exists", "expose", "hide", "hidden", "invokehidden", "issafe", "limit", "marktrusted",
       "recursionlimit", "share", "slaves", "target", "transfer"]),
    ("load".toList,
     strs ["-global", "-lazy"]),
    ("lsearch".toList,
     strs ["-exact", "-glob", "-regexp", "-sorted", "-all", "-inline", "-not", "-start",
       "-ascii", "-dictionary", "-integer", "-nocase", "-real", "-decreasing", "-increasing",
       "-bisect", "-index", "-subindices"]),
    ("lsort".toList,
     strs ["-ascii", "-dictionary", "-integer", "-real", "-command", "-increasing",
       "-decreasing", "-indices", "-index", "-stride", "-nocase", "-unique"]),
    ("namespace".toList,
     strs ["children", "code", "current", "delete", "ensemble", "eval", "exists", "export",
       "-clear", "forget", "import", "-force", "inscope", "origin", "parent", "path",
       "qualifiers", "tail", "upvar", "unknown", "which", "-command", "-variable"]),
    ("package".toList,
     strs ["forget", "ifneeded", "names", "present", "provide", "require", "unknown", "vcompare",
       "versions", "vsatisfies", "prefer"]),
    ("puts".toList,
     strs ["-nonewline"]),
    ("read".toList,
     strs ["-nonewline"]),
    ("regexp".toList,
     strs ["-about", "-expanded", "-indices", "-line", "-linestop", "-lineanchor", "-nocase",
       "-all", "-inline", "-start"]),
    ("regsub".toList,
     strs ["-all", "-expanded", "-line", "-linestop", "-lineanchor", "-nocase", "-start"]),
    ("return".toList,
     strs ["ok", "error", "return", "break", "continue", "-code", "-errorcode", "-errorinfo",
       "-errorstack", "-level", "-options"]),
    ("seek".toList,
     strs ["start", "current", "end"]),
    ("self".toList,
     strs ["call", "caller", "class", "filter", "method", "namespace", "next", "object", "target"]),
    ("socket".toList,
     strs ["-async", "-connecting", "-error", "-myaddr", "-myport", "-peername", "-server",
       "-sockname"]),
    ("source".toList,
     strs ["-encoding"]),
    ("string".toList,
     strs ["-failindex", "-length", "-nocase", "-strict", "alnum", "alpha", "ascii", "boolean",
       "cat", "compare", "control", "digit", "double", "entier", "equal", "false", "first",
       "graph", "index", "integer", "is", "last", "length", "list", "lower", "map", "match",
       "print", "punct", "range", "repeat", "replace", "reverse", "space", "tolower", "totitle",
       "toupper", "trim", "trimleft", "trimright", "true", "upper", "wideinteger", "wordchar",
       "xdigit"]),
    ("subst".toList,
     strs ["-nobackslashes", "-nocommands", "-novariables"]),
    ("switch".toList,
     strs ["-exact", "-glob", "-regexp", "-nocase", "-matchvar", "-indexvar"]),
    ("trace".toList,
     strs ["add", "array", "command", "delete", "enter", "enterstep", "execution", "info",
       "leave", "leavestep", "read", "remove", "rename", "unset", "variable", "vdelete", "vinfo",
       "write"]),
    ("unload".toList,
     strs ["-nocomplain", "-keeplibrary"]),
    ("unset".toList,
     strs ["-nocomplain"]),
    ("update".toList,
     strs ["idletasks"])
  ]

/-- Source `completion_table_add_defaults`: one `completion_table_add_command`
per row of the table, first row first. -/
def completion_table_add_defaults (tclln : tclln_data) : tclln_data :=
  default_table.foldl (fun tclln row => completion_table_add_command tclln row.1 row.2) tclln

/-- The completion part of source `tclln_new`: an empty buffer, no candidates, an
empty tree, then the seeded table.  The argument is the interpreter created by
`Tcl_CreateInterp`. -/
def tclln_new (interp : Tcl_Interp) : tclln_data :=
  completion_table_add_defaults
    { tcl_interp := interp, completion_begin := [], completion_list := [],
      completion_arg_table := [] }

/-- The three context kinds of the specification. -/
inductive Kind where
  | Command
  | Variable
  | Argument
  deriving DecidableEq, Repr

/-- The kind of a context; an aborted scan has none. -/
def Context.kind : Context → Option Kind
  | Context.abort => none
  | Context.command _ _ => some Kind.Command
  | Context.variable _ _ _ => some Kind.Variable
  | Context.argument _ _ _ => some Kind.Argument

/-- An interpreter in which `foo` is a procedure: both the `info commands` and
the `info procs` query on `fo` answer `foo`; every other script fails. -/
def proc_interp : Tcl_Interp :=
  { answer := fun script =>
      if script = "info commands fo*\n".toList ∨ script = "info procs fo*\n".toList
      then some ["foo".toList] else none,
    log := [] }

/-- The script of the "commands with this prefix" query. -/
def commands_query (base : CStr) : CStr := "info commands ".toList ++ base ++ "*\n".toList

/-- The script of the "procedures with this prefix" query. -/
def procs_query (base : CStr) : CStr := "info procs ".toList ++ base ++ "*\n".toList

/-- The script of the "variables with this prefix" query. -/
def vars_query (base : CStr) : CStr := "info vars ".toList ++ base ++ "*\n".toList

/-- The list an interpreter contributes for a script: its answer, nothing when
the evaluation fails. -/
def contribution (interp : Tcl_Interp) (script : CStr) : List CStr :=
  (interp.answer script).getD []

/-- An interpreter whose `info commands` query fails while its `info procs`
query on `fo` answers `foo`. -/
def flaky_interp : Tcl_Interp :=
  { answer := fun script => if script = "info procs fo*\n".toList then some ["foo".toList] else none,
    log := [] }

/-- An interpreter in which the variable `myvar` is visible. -/
def var_interp : Tcl_Interp :=
  { answer := fun script =>
      if script = "info vars my*\n".toList then some ["myvar".toList] else none,
    log := [] }

/-- The tree `completion_table_add_defaults` builds from the empty tree. -/
def seeded_table : GTree :=
  default_table.foldl
    (fun arg_table row => g_tree_insert arg_table row.1 (g_list_sort (prepend_all [] row.2))) []

/-! ## Facts about `strcmp` and `g_list_sort` -/

theorem char_toNat_inj {a b : Char} (h : a.toNat = b.toNat) : a = b := by
  apply Char.eq_of_val_eq
  apply UInt32.ext
  exact h

theorem strcmp_eq_zero_iff (a b : CStr) : strcmp a b = 0 ↔ a = b := by
  induction a generalizing b with
  | nil => cases b <;> simp [strcmp]
  | cons x xs ih =>
    cases b with
    | nil => simp [strcmp]
    | cons y ys =>
      by_cases hxy : x = y
      · simp [strcmp, hxy, ih]
      · by_cases hlt : x.toNat < y.toNat <;> simp [strcmp, hxy, hlt]

theorem strcmp_self (a : CStr) : strcmp a a = 0 := (strcmp_eq_zero_iff a a).2 rfl

theorem strcmp_swap (a b : CStr) : strcmp b a = - strcmp a b := by
  induction a generalizing b with
  | nil => cases b <;> simp [strcmp]
  | cons x xs ih =>
    cases b with
    | nil => simp [strcmp]
    | cons y ys =>
      by_cases hxy : x = y
      · subst hxy
        simp [strcmp, ih]
      · have hyx : ¬ y = x := fun h => hxy h.symm
        have hne : x.toNat ≠ y.toNat := fun h => hxy (char_toNat_inj h)
        by_cases hlt : x.toNat < y.toNat
        · have hgt : ¬ y.toNat < x.toNat := by omega
          simp [strcmp, hxy, hyx, hlt, hgt]
        · have hgt : y.toNat < x.toNat := by omega
          simp [strcmp, hxy, hyx, hlt, hgt]

theorem str_le_total (a b : CStr) : str_le a b ∨ str_le b a := by
  unfold str_le
  rw [strcmp_swap a b]
  omega

theorem str_le_trans {a b c : CStr} (hab : str_le a b) (hbc : str_le b c) : str_le a c := by
  unfold str_le at *
  induction a generalizing b c with
  | nil => cases c <;> simp [strcmp]
  | cons x xs ih =>
    cases b with
    | nil => simp [strcmp] at hab
    | cons y ys =>
      cases c with
      | nil => simp [strcmp] at hbc
      | cons z zs =>
        by_cases hxy : x = y
        · subst hxy
          by_cases hxz : x = z
          · subst hxz
            simp only [strcmp, if_true] at hab hbc ⊢
            exact ih hab hbc
          · simp only [strcmp, hxz, if_false, if_true] at hab hbc ⊢
            exact hbc
        · have hne : x.toNat ≠ y.toNat := fun h => hxy (char_toNat_inj h)
          have hlt : x.toNat < y.toNat := by
            by_contra hlt
            simp [strcmp, hxy, hlt] at hab
          by_cases hyz : y = z
          · subst hyz
            simp [strcmp, hxy, hlt]
          · have hlt2 : y.toNat < z.toNat := by
              by_contra hlt2
              simp [strcmp, hyz, hlt2] at hbc
            have hxz : x ≠ z := by
              intro h
              subst h
              omega
            have hlt3 : x.toNat < z.toNat := by omega
            simp [strcmp, hxz, hlt3]

theorem str_le_antisymm {a b : CStr} (hab : str_le a b) (hba : str_le b a) : a = b := by
  unfold str_le at *
  rw [strcmp_swap a b] at hba
  exact (strcmp_eq_zero_iff a b).1 (by omega)

instance str_le_isTotal : IsTotal CStr str_le := ⟨str_le_total⟩

instance str_le_isTrans : IsTrans CStr str_le := ⟨fun _ _ _ => str_le_trans⟩

instance str_le_isAntisymm : IsAntisymm CStr str_le := ⟨fun _ _ => str_le_antisymm⟩

theorem g_list_sort_sorted (l : List CStr) : List.Sorted str_le (g_list_sort l) :=
  List.sorted_insertionSort str_le l

theorem g_list_sort_perm (l : List CStr) : (g_list_sort l).Perm l :=
  List.perm_insertionSort str_le l

theorem g_list_sort_of_sorted {l : List CStr} (h : List.Sorted str_le l) : g_list_sort l = l :=
  List.Sorted.insertionSort_eq h

theorem prepend_all_eq (arg_list l : List CStr) : prepend_all arg_list l = l.reverse ++ arg_list := by
  induction l generalizing arg_list with
  | nil => simp [prepend_all]
  | cons s rest ih => simp [prepend_all, ih]

/-! ## Facts about the registry -/

theorem g_tree_lookup_insert_same (t : GTree) (key : CStr) (value : List CStr) :
    g_tree_lookup (g_tree_insert t key value) key = some value := by
  induction t with
  | nil => simp [g_tree_insert, g_tree_lookup, strcmp_self]
  | cons p rest ih =>
    obtain ⟨k, v⟩ := p
    by_cases h : strcmp k key = 0
    · simp [g_tree_insert, g_tree_lookup, h]
    · simp [g_tree_insert, g_tree_lookup, h, ih]

theorem g_tree_lookup_insert_other (t : GTree) (key other : CStr) (value : List CStr)
    (hne : other ≠ key) :
    g_tree_lookup (g_tree_insert t key value) other = g_tree_lookup t other := by
  induction t with
  | nil =>
    have h : ¬ strcmp key other = 0 := fun h => hne ((strcmp_eq_zero_iff _ _).1 h).symm
    simp [g_tree_insert, g_tree_lookup, h]
  | cons p rest ih =>
    obtain ⟨k, v⟩ := p
    by_cases h : strcmp k key = 0
    · have hk : k = key := (strcmp_eq_zero_iff _ _).1 h
      have h2 : ¬ strcmp k other = 0 := fun h2 => hne (((strcmp_eq_zero_iff _ _).1 h2).symm.trans hk)
      simp [g_tree_insert, g_tree_lookup, h, h2]
    · simp [g_tree_insert, g_tree_lookup, h, ih]

/-! ## Replace semantics of the registry -/

/-- C1: registering `k` with `a` and then with `b` leaves under `k` exactly what
registering `b` alone leaves: the strings of `b` (with their multiplicities),
sorted ascending by `strcmp`; no string of `a` that is not in `b` remains. -/
theorem C1_replace_semantics (tclln : tclln_data) (k : CStr) (a b : List CStr) :
    g_tree_lookup
        (completion_table_add_command (completion_table_add_command tclln k a) k b).completion_arg_table k
      = g_tree_lookup (completion_table_add_command tclln k b).completion_arg_table k
    ∧ g_tree_lookup
        (completion_table_add_command (completion_table_add_command tclln k a) k b).completion_arg_table k
      = some (g_list_sort b.reverse)
    ∧ List.Sorted str_le (g_list_sort b.reverse)
    ∧ (g_list_sort b.reverse).Perm b
    ∧ (∀ x, x ∈ a → x ∉ b → x ∉ g_list_sort b.reverse) := by
  refine ⟨?_, ?_, g_list_sort_sorted _, ?_, ?_⟩
  · simp [completion_table_add_command, g_tree_lookup_insert_same]
  · simp [completion_table_add_command, g_tree_lookup_insert_same, prepend_all_eq]
  · exact (g_list_sort_perm _).trans (List.reverse_perm b)
  · intro x _ hxb hx
    exact hxb ((List.reverse_perm b).subset ((g_list_sort_perm _).subset hx))

/-- C1, the spec's instance: `foo` registered with `--bar`, then with `--baz`. -/
theorem C1_replace_semantics_witness :
    lookup_list
        (completion_table_add_command
          (completion_table_add_command ⟨⟨fun _ => none, []⟩, [], [], []⟩ "foo".toList ["--bar".toList])
          "foo".toList ["--baz".toList]).completion_arg_table "foo".toList
      = ["--baz".toList] := by
  have h := (C1_replace_semantics ⟨⟨fun _ => none, []⟩, [], [], []⟩ "foo".toList
    ["--bar".toList] ["--baz".toList]).2.1
  simp only [lookup_list, h]
  decide

/-! ## The bracket-aware backward walk -/

/-- Closers minus openers of the suffix `in_buf[i..]`: the value of `brace_count`
once the walk has read the characters at `i` and after. -/
theorem brace_step_eq (c : Char) (n : Int) :
    brace_step c n = n + (if is_closer c then 1 else 0) - (if is_opener c then 1 else 0) := by
  have h1 : ('[' : Char) ≠ ']' := by decide
  have h2 : ('[' : Char) ≠ '}' := by decide
  have h3 : ('{' : Char) ≠ ']' := by decide
  have h4 : ('{' : Char) ≠ '}' := by decide
  have h5 : ('[' : Char) ≠ '{' := by decide
  have h6 : (']' : Char) ≠ '}' := by decide
  by_cases a1 : c = ']'
  · subst a1
    simp [brace_step, is_closer, is_opener, h1.symm, h3.symm, h6]
  · by_cases a2 : c = '}'
    · subst a2
      simp [brace_step, is_closer, is_opener, h2.symm, h4.symm, h6.symm]
    · by_cases a3 : c = '['
      · subst a3
        simp [brace_step, is_closer, is_opener, h1, h2, h5]
      · by_cases a4 : c = '{'
        · subst a4
          simp [brace_step, is_closer, is_opener, h3, h4, h5.symm]
        · simp [brace_step, is_closer, is_opener, a1, a2, a3, a4]

theorem drop_eq_char_at_cons (in_buf : CStr) (i : Nat) (h : i < in_buf.length) :
    in_buf.drop i = char_at in_buf i :: in_buf.drop (i + 1) := by
  rw [char_at, List.getD_eq_getElem _ _ h]
  exact List.drop_eq_getElem_cons h

theorem balance_step (in_buf : CStr) (i : Nat) (h : i < in_buf.length) :
    ((closers (in_buf.drop i) : Int) - openers (in_buf.drop i))
      = brace_step (char_at in_buf i)
          ((closers (in_buf.drop (i + 1)) : Int) - openers (in_buf.drop (i + 1))) := by
  rw [brace_step_eq, drop_eq_char_at_cons in_buf i h]
  simp only [closers, openers, List.countP_cons]
  by_cases hc : is_closer (char_at in_buf i) = true <;>
    by_cases ho : is_opener (char_at in_buf i) = true <;>
    simp [hc, ho] <;> omega

theorem backscan_spec (in_buf : CStr) (k : Nat) (hk : k ≤ in_buf.length)
    (hinv : ∀ j, k ≤ j → ¬ more_openers in_buf j) :
    backscan in_buf k ((closers (in_buf.drop k) : Int) - openers (in_buf.drop k)) ≤ k
    ∧ (∀ j, backscan in_buf k ((closers (in_buf.drop k) : Int) - openers (in_buf.drop k)) ≤ j →
        ¬ more_openers in_buf j)
    ∧ (0 < backscan in_buf k ((closers (in_buf.drop k) : Int) - openers (in_buf.drop k)) →
        more_openers in_buf
          (backscan in_buf k ((closers (in_buf.drop k) : Int) - openers (in_buf.drop k)) - 1)) := by
  induction k with
  | zero => simp [backscan]; exact fun j => hinv j (Nat.zero_le j)
  | succ k ih =>
    have hlt : k < in_buf.length := hk
    rw [backscan, ← balance_step in_buf k hlt]
    by_cases hneg : ((closers (in_buf.drop k) : Int) - openers (in_buf.drop k)) < 0
    · rw [if_pos hneg]
      refine ⟨le_refl _, hinv, fun _ => ?_⟩
      simp only [Nat.add_sub_cancel, more_openers]
      omega
    · rw [if_neg hneg]
      have hinv2 : ∀ j, k ≤ j → ¬ more_openers in_buf j := by
        intro j hj
        rcases Nat.eq_or_lt_of_le hj with h | h
        · subst h
          simp only [more_openers]
          omega
        · exact hinv j h
      obtain ⟨h1, h2, h3⟩ := ih (Nat.le_of_lt hlt) hinv2
      exact ⟨Nat.le_succ_of_le h1, h2, h3⟩

theorem more_openers_of_length_le (in_buf : CStr) (j : Nat) (h : in_buf.length ≤ j) :
    ¬ more_openers in_buf j := by
  simp [more_openers, List.drop_eq_nil_of_le h, closers, openers]

theorem com_start_spec (in_buf : CStr) :
    com_start in_buf ≤ in_buf.length
    ∧ (∀ j, com_start in_buf ≤ j → ¬ more_openers in_buf j)
    ∧ (0 < com_start in_buf → more_openers in_buf (com_start in_buf - 1)) := by
  have h := backscan_spec in_buf in_buf.length (le_refl _)
    (fun j hj => more_openers_of_length_le in_buf j hj)
  simpa [com_start, closers, openers] using h

theorem com_start_unique (in_buf : CStr) (i : Nat) (hi : more_openers in_buf i)
    (hright : ∀ j, i < j → ¬ more_openers in_buf j) : com_start in_buf = i + 1 := by
  obtain ⟨_, hafter, hat⟩ := com_start_spec in_buf
  have h1 : ¬ com_start in_buf ≤ i := fun h => hafter i h hi
  have h3 := hat (by omega)
  by_contra hne
  exact hright (com_start in_buf - 1) (by omega) h3

theorem com_start_eq_zero (in_buf : CStr) (hnone : ∀ i, ¬ more_openers in_buf i) :
    com_start in_buf = 0 := by
  obtain ⟨_, _, hat⟩ := com_start_spec in_buf
  by_contra hne
  exact hnone _ (hat (by omega))

theorem com_start_drop (in_buf : CStr) (j : Nat) :
    ¬ more_openers (in_buf.drop (com_start in_buf)) j := by
  intro hj
  apply (com_start_spec in_buf).2.1 (com_start in_buf + j) (by omega)
  simpa [more_openers, List.drop_drop, Nat.add_comm] using hj

/-- C3: the backward walk places `comStart` one past the rightmost index whose
suffix holds more openers than closers, and at 0 when there is no such index;
the character before a positive `comStart` is an opener, and no suffix of the
fragment `in_buf[comStart..]` holds more openers than closers. -/
theorem C3_backscan_rightmost_unmatched_opener (in_buf : CStr) :
    (∀ i, more_openers in_buf i → (∀ j, i < j → ¬ more_openers in_buf j) →
        com_start in_buf = i + 1)
    ∧ ((∀ i, ¬ more_openers in_buf i) → com_start in_buf = 0)
    ∧ (0 < com_start in_buf →
        com_start in_buf - 1 < in_buf.length
        ∧ more_openers in_buf (com_start in_buf - 1)
        ∧ is_opener (char_at in_buf (com_start in_buf - 1)) = true)
    ∧ (∀ j, ¬ more_openers (in_buf.drop (com_start in_buf)) j) := by
  obtain ⟨hle, hafter, hat⟩ := com_start_spec in_buf
  refine ⟨com_start_unique in_buf, com_start_eq_zero in_buf, ?_, com_start_drop in_buf⟩
  intro hpos
  have hm := hat hpos
  have hlt : com_start in_buf - 1 < in_buf.length := by omega
  refine ⟨hlt, hm, ?_⟩
  have hnext := hafter (com_start in_buf) (le_refl _)
  have hstep := balance_step in_buf (com_start in_buf - 1) hlt
  rw [brace_step_eq] at hstep
  have hidx : com_start in_buf - 1 + 1 = com_start in_buf := by omega
  rw [hidx] at hstep
  simp only [more_openers] at hm hnext
  by_contra hno
  simp only [Bool.not_eq_true] at hno
  rw [hno] at hstep
  by_cases hc : is_closer (char_at in_buf (com_start in_buf - 1)) = true
  · simp [hc] at hstep
    omega
  · simp [hc] at hstep
    omega

/-- C3 at the buffer `expr {[format %`: the walk stops on the `[`. -/
theorem C3_backscan_witness :
    0 < com_start "expr \x7b[format %".toList
    ∧ com_start "expr \x7b[format %".toList - 1 < "expr \x7b[format %".toList.length
    ∧ more_openers "expr \x7b[format %".toList (com_start "expr \x7b[format %".toList - 1)
    ∧ is_opener (char_at "expr \x7b[format %".toList (com_start "expr \x7b[format %".toList - 1))
        = true :=
  ⟨by decide, (C3_backscan_rightmost_unmatched_opener "expr \x7b[format %".toList).2.2.1 (by decide)⟩

/-! ## Argument candidates -/

theorem strncmp_eq_zero_iff (elem base : CStr) :
    strncmp elem base base.length = 0 ↔ base <+: elem := by
  induction base generalizing elem with
  | nil => simp [strncmp]
  | cons b bs ih =>
    cases elem with
    | nil => simp [strncmp]
    | cons e es =>
      by_cases heb : e = b
      · subst heb
        simp [strncmp, ih, List.cons_prefix_cons]
      · have hbe : ¬ b = e := fun h => heb h.symm
        by_cases hlt : e.toNat < b.toNat <;>
          simp [strncmp, heb, hbe, hlt, List.cons_prefix_cons]

theorem args_loop_eq (base : CStr) (candidates arg_list : List CStr) :
    args_loop base base.length candidates arg_list
      = (arg_list.filter (fun elem => decide (base <+: elem))).reverse ++ candidates := by
  induction arg_list generalizing candidates with
  | nil => simp [args_loop]
  | cons e rest ih =>
    by_cases h : base <+: e
    · have h0 : strncmp e base base.length = 0 := (strncmp_eq_zero_iff e base).2 h
      simp [args_loop, h0, h, ih]
    · have h0 : ¬ strncmp e base base.length = 0 := fun h0 => h ((strncmp_eq_zero_iff e base).1 h0)
      simp [args_loop, h0, h, ih]

theorem completion_generate_args_eq (arg_table : GTree) (command base : CStr) :
    completion_generate_args arg_table [] command base
      = if base = [] then []
        else ((lookup_list arg_table (lookup_key command)).filter
                (fun elem => decide (base <+: elem))).reverse := by
  unfold completion_generate_args
  by_cases hl : lookup_list arg_table (lookup_key command) = []
  · simp [hl]
  · by_cases hb : base = []
    · simp [hl, hb]
    · have hlen : ¬ base.length ≤ 0 := by
        have := List.length_pos.2 hb
        omega
      simp only [hl, hb, hlen, if_false]
      rw [args_loop_eq]
      simp

theorem fill_completion_eq (completion_begin : CStr) (l : List CStr) :
    fill_completion completion_begin l = l.map (fun data => completion_begin ++ data) := by
  induction l with
  | nil => rfl
  | cons d rest ih => simp [fill_completion, ih]

theorem classify_nil : classify [] = Context.abort := by decide

theorem strcmp_nil_ne_zero {in_buf : CStr} (h : in_buf ≠ []) : ¬ strcmp in_buf [] = 0 :=
  fun h0 => h ((strcmp_eq_zero_iff in_buf []).1 h0)

/-- What `completion` returns on a non-empty buffer. -/
theorem completion_some (tclln : tclln_data) (in_buf : CStr) (h : in_buf ≠ []) :
    completion (some tclln) in_buf
      = (some { completion_generate { tclln with completion_begin := in_buf } with
                completion_list :=
                  g_list_sort (completion_generate { tclln with completion_begin := in_buf }).completion_list },
         fill_completion (completion_generate { tclln with completion_begin := in_buf }).completion_begin
           (g_list_sort (completion_generate { tclln with completion_begin := in_buf }).completion_list)) := by
  unfold completion
  simp only [strcmp_nil_ne_zero h, if_false]
  split
  · next hnil =>
    have hnil2 :
        g_list_sort (completion_generate { tclln with completion_begin := in_buf }).completion_list
          = [] := hnil
    rw [hnil2]
    rfl
  · rfl

theorem completion_generate_argument (tclln : tclln_data) (in_buf str_cmd str_base : CStr)
    (pos_start : Nat) (hctx : classify in_buf = Context.argument str_cmd str_base pos_start) :
    completion_generate { tclln with completion_begin := in_buf }
      = { tclln with
          completion_list :=
            completion_generate_args tclln.completion_arg_table [] str_cmd str_base,
          completion_begin := in_buf.take pos_start } := by
  unfold completion_generate
  simp only [hctx]

theorem classify_ne_nil {in_buf : CStr} (h : classify in_buf ≠ Context.abort) : in_buf ≠ [] := by
  intro hnil
  subst hnil
  exact h classify_nil

theorem g_list_sort_congr {l₁ l₂ : List CStr} (h : l₁.Perm l₂) : g_list_sort l₁ = g_list_sort l₂ :=
  List.eq_of_perm_of_sorted (((g_list_sort_perm l₁).trans h).trans (g_list_sort_perm l₂).symm)
    (g_list_sort_sorted l₁) (g_list_sort_sorted l₂)

/-- C2: in Argument context with command token `c` (the first word of the
fragment, a leading `::` removed as `completion_generate_args` does) and a
non-empty base `b`, the candidates of `completion` are exactly the strings
registered for `c` that have `b` as a prefix, in ascending `strcmp` order, and
the lines handed to the line editor are these candidates behind the buffer
prefix. -/
theorem C2_argument_filtering (tclln : tclln_data) (in_buf str_cmd str_base : CStr)
    (pos_start : Nat)
    (hctx : classify in_buf = Context.argument str_cmd str_base pos_start)
    (hbase : str_base ≠ []) :
    (completion (some tclln) in_buf).1.map tclln_data.completion_list
      = some (g_list_sort ((lookup_list tclln.completion_arg_table (lookup_key str_cmd)).filter
          (fun elem => decide (str_base <+: elem))))
    ∧ List.Sorted str_le
        (g_list_sort ((lookup_list tclln.completion_arg_table (lookup_key str_cmd)).filter
          (fun elem => decide (str_base <+: elem))))
    ∧ (g_list_sort ((lookup_list tclln.completion_arg_table (lookup_key str_cmd)).filter
          (fun elem => decide (str_base <+: elem)))).Perm
        ((lookup_list tclln.completion_arg_table (lookup_key str_cmd)).filter
          (fun elem => decide (str_base <+: elem)))
    ∧ (List.Sorted str_le (lookup_list tclln.completion_arg_table (lookup_key str_cmd)) →
        g_list_sort ((lookup_list tclln.completion_arg_table (lookup_key str_cmd)).filter
          (fun elem => decide (str_base <+: elem)))
        = (lookup_list tclln.completion_arg_table (lookup_key str_cmd)).filter
          (fun elem => decide (str_base <+: elem)))
    ∧ (completion (some tclln) in_buf).2
      = (g_list_sort ((lookup_list tclln.completion_arg_table (lookup_key str_cmd)).filter
          (fun elem => decide (str_base <+: elem)))).map
          (fun candidate => in_buf.take pos_start ++ candidate) := by
  have hne : in_buf ≠ [] := classify_ne_nil (by rw [hctx]; exact fun h => Context.noConfusion h)
  have hgen := completion_generate_argument tclln in_buf str_cmd str_base pos_start hctx
  have hargs := completion_generate_args_eq tclln.completion_arg_table str_cmd str_base
  rw [if_neg hbase] at hargs
  have hsort :
      g_list_sort (completion_generate_args tclln.completion_arg_table [] str_cmd str_base)
        = g_list_sort ((lookup_list tclln.completion_arg_table (lookup_key str_cmd)).filter
            (fun elem => decide (str_base <+: elem))) := by
    rw [hargs]
    exact g_list_sort_congr (List.reverse_perm _)
  refine ⟨?_, g_list_sort_sorted _, g_list_sort_perm _, ?_, ?_⟩
  · rw [completion_some tclln in_buf hne, hgen]
    simp only [Option.map_some']
    rw [hsort]
  · intro hs
    exact g_list_sort_of_sorted (List.Sorted.filter _ hs)
  · rw [completion_some tclln in_buf hne, hgen]
    simp only
    rw [hsort, fill_completion_eq]

/-- C2, the spec's instance: with `string` registered with `map`, `match` and
`length`, the buffer `string ma` is an Argument context of `string` on `ma`
and yields `map` and `match`, in that order. -/
theorem C2_argument_filtering_witness :
    classify "string ma".toList = Context.argument "string".toList "ma".toList 7
    ∧ (completion (some string_session) "string ma".toList).1.map tclln_data.completion_list
        = some ["map".toList, "match".toList]
    ∧ (completion (some string_session) "string ma".toList).2
        = ["string map".toList, "string match".toList] := by
  have h := C2_argument_filtering string_session "string ma".toList "string".toList "ma".toList 7
    (by decide) (by decide)
  refine ⟨by decide, ?_, ?_⟩
  · rw [h.1]
    decide
  · rw [h.2.2.2.2]
    decide

/-! ## Empty-prefix suppression -/

/-- C8: in Argument context with the empty base, whatever is registered for the
command, `completion` yields no candidate and hands no line to the editor. -/
theorem C8_empty_prefix_suppression (tclln : tclln_data) (in_buf str_cmd : CStr)
    (pos_start : Nat)
    (hctx : classify in_buf = Context.argument str_cmd [] pos_start) :
    completion_generate_args tclln.completion_arg_table [] str_cmd [] = []
    ∧ (completion (some tclln) in_buf).1.map tclln_data.completion_list = some []
    ∧ (completion (some tclln) in_buf).2 = [] := by
  have hne : in_buf ≠ [] := classify_ne_nil (by rw [hctx]; exact fun h => Context.noConfusion h)
  have hgen := completion_generate_argument tclln in_buf str_cmd [] pos_start hctx
  have hargs := completion_generate_args_eq tclln.completion_arg_table str_cmd []
  rw [if_pos rfl] at hargs
  refine ⟨hargs, ?_, ?_⟩
  · rw [completion_some tclln in_buf hne, hgen]
    simp only [Option.map_some', hargs]
    rfl
  · rw [completion_some tclln in_buf hne, hgen]
    simp only [hargs]
    rfl

/-- C8 at the buffer `string ` (command name and a space), `string` being
registered with three arguments. -/
theorem C8_empty_prefix_suppression_witness :
    lookup_list string_session.completion_arg_table "string".toList
      = ["length".toList, "map".toList, "match".toList]
    ∧ classify "string ".toList = Context.argument "string".toList [] 7
    ∧ (completion (some string_session) "string ".toList).2 = [] :=
  ⟨by decide, by decide,
    (C8_empty_prefix_suppression string_session "string ".toList "string".toList 7 (by decide)).2.2⟩

/-! ## Prefix reattachment -/

theorem strcmp_append_left (p a b : CStr) : strcmp (p ++ a) (p ++ b) = strcmp a b := by
  induction p with
  | nil => rfl
  | cons x xs ih => simp [strcmp, ih]

theorem completion_generate_begin (tclln : tclln_data) (in_buf : CStr)
    (hctx : classify in_buf ≠ Context.abort) :
    (completion_generate { tclln with completion_begin := in_buf }).completion_begin
      = in_buf.take (classify in_buf).replacement_start := by
  unfold completion_generate
  cases h : classify in_buf <;>
    first
    | exact absurd h hctx
    | simp only [h, Context.replacement_start]

/-- C10: when the scan does not abort, the lines handed to the line editor are
the strings `in_buf[0..replacementStart) ++ c` for `c` running through the
generated candidates sorted ascending; every line starts with that buffer prefix
and the list of lines is sorted ascending. -/
theorem C10_prefix_reattachment (tclln : tclln_data) (in_buf : CStr)
    (hctx : classify in_buf ≠ Context.abort) :
    (completion (some tclln) in_buf).2
      = (g_list_sort
          (completion_generate { tclln with completion_begin := in_buf }).completion_list).map
          (fun candidate => in_buf.take (classify in_buf).replacement_start ++ candidate)
    ∧ List.Sorted str_le
        (g_list_sort (completion_generate { tclln with completion_begin := in_buf }).completion_list)
    ∧ (∀ line, line ∈ (completion (some tclln) in_buf).2 →
        in_buf.take (classify in_buf).replacement_start <+: line)
    ∧ List.Sorted str_le (completion (some tclln) in_buf).2 := by
  have hne : in_buf ≠ [] := classify_ne_nil hctx
  have hlines :
      (completion (some tclln) in_buf).2
        = (g_list_sort
            (completion_generate { tclln with completion_begin := in_buf }).completion_list).map
            (fun candidate => in_buf.take (classify in_buf).replacement_start ++ candidate) := by
    rw [completion_some tclln in_buf hne]
    simp only
    rw [completion_generate_begin tclln in_buf hctx, fill_completion_eq]
  refine ⟨hlines, g_list_sort_sorted _, ?_, ?_⟩
  · intro line hline
    rw [hlines] at hline
    obtain ⟨c, _, hc⟩ := List.mem_map.1 hline
    rw [← hc]
    exact List.prefix_append _ _
  · rw [hlines]
    unfold List.Sorted
    rw [List.pairwise_map]
    refine List.Pairwise.imp ?_ (g_list_sort_sorted _)
    intro a b hab
    unfold str_le at *
    rw [strcmp_append_left]
    exact hab

/-- C10 at the buffer `string ma`: both lines keep the prefix `string `. -/
theorem C10_prefix_reattachment_witness :
    classify "string ma".toList ≠ Context.abort
    ∧ (completion (some string_session) "string ma".toList).2
        = ["string map".toList, "string match".toList]
    ∧ List.Sorted str_le (completion (some string_session) "string ma".toList).2 := by
  have h := C10_prefix_reattachment string_session "string ma".toList (by decide)
  refine ⟨by decide, ?_, h.2.2.2⟩
  rw [h.1]
  decide

/-! ## No-candidate safety -/

theorem isspace_ne_NUL {c : Char} (h : isspace c = true) : (c != NUL) = true := by
  have hN : isspace NUL = false := by decide
  simp only [bne_iff_ne, ne_eq]
  intro hc
  rw [hc, hN] at h
  exact Bool.false_ne_true h

theorem skip_space_all (s : CStr) (pos_cmd : Nat) (h : ∀ c, c ∈ s → isspace c = true) :
    skip_space s pos_cmd = pos_cmd + s.length := by
  induction s generalizing pos_cmd with
  | nil => rfl
  | cons c rest ih =>
    have hc : isspace c = true := h c (List.mem_cons_self _ _)
    have hrest : ∀ d, d ∈ rest → isspace d = true := fun d hd => h d (List.mem_cons_of_mem _ hd)
    simp only [skip_space, hc, isspace_ne_NUL hc, Bool.and_self, if_true, ih _ hrest,
      List.length_cons]
    omega

theorem scan_back_self (in_buf : CStr) (pos_cmd : Nat) : scan_back in_buf pos_cmd pos_cmd = pos_cmd := by
  cases pos_cmd with
  | zero => rfl
  | succ p => simp [scan_back]

theorem com_start_le (in_buf : CStr) : com_start in_buf ≤ in_buf.length :=
  (com_start_spec in_buf).1

theorem scan_pos_cmd (in_buf : CStr) :
    (scan in_buf).pos_cmd = skip_space (in_buf.drop (com_start in_buf)) (com_start in_buf) := rfl

theorem scan_len_cmd (in_buf : CStr) :
    (scan in_buf).len_cmd = token_len (in_buf.drop (scan in_buf).pos_cmd) 0 := rfl

theorem scan_str_cmd (in_buf : CStr) :
    (scan in_buf).str_cmd = (in_buf.drop (scan in_buf).pos_cmd).take (scan in_buf).len_cmd := rfl

theorem scan_pos_start (in_buf : CStr) :
    (scan in_buf).pos_start
      = if scan_back in_buf (scan in_buf).pos_cmd in_buf.length > (scan in_buf).pos_cmd
        then scan_back in_buf (scan in_buf).pos_cmd in_buf.length + 1
        else scan_back in_buf (scan in_buf).pos_cmd in_buf.length := rfl

theorem scan_str_base (in_buf : CStr) :
    (scan in_buf).str_base = in_buf.drop (scan in_buf).pos_start := rfl

theorem classify_abort_of_space (in_buf : CStr)
    (h : ∀ c, c ∈ in_buf.drop (com_start in_buf) → isspace c = true) :
    (scan in_buf).len_cmd = 0 ∧ classify in_buf = Context.abort := by
  have hle := com_start_le in_buf
  have hpos : (scan in_buf).pos_cmd = in_buf.length := by
    rw [scan_pos_cmd, skip_space_all _ _ h, List.length_drop]
    omega
  have hlen : (scan in_buf).len_cmd = 0 := by
    rw [scan_len_cmd, hpos, List.drop_length]
    rfl
  have hstart : (scan in_buf).pos_start = (scan in_buf).pos_cmd := by
    rw [scan_pos_start, hpos, scan_back_self]
    simp
  refine ⟨hlen, ?_⟩
  unfold classify classify_scan
  simp only [hlen, hstart, and_self, if_true]

theorem com_start_opener (o : Char) (ho : is_opener o = true) : com_start [o] = 1 := by
  have h : brace_step o 0 < 0 := by
    rw [brace_step_eq, ho]
    simp only [is_opener, Bool.or_eq_true, beq_iff_eq] at ho
    rcases ho with h | h <;> subst h <;> decide
  simp [com_start, backscan, char_at, h]

/-- C9: on the empty buffer, on a buffer that is a single opener, and on every
buffer whose fragment after `comStart` is empty or whitespace only, `cmdLen` is 0,
the scan aborts, and `completion` hands no line to the editor, evaluates no
script (the interpreter and its log are unchanged) and leaves the registry
unchanged.  `completion` has no error result. -/
theorem C9_no_candidate_safety (tclln : tclln_data) (in_buf : CStr)
    (h : in_buf = [] ∨ (∃ o, is_opener o = true ∧ in_buf = [o])
      ∨ ∀ c, c ∈ in_buf.drop (com_start in_buf) → isspace c = true) :
    (scan in_buf).len_cmd = 0
    ∧ classify in_buf = Context.abort
    ∧ (completion (some tclln) in_buf).2 = []
    ∧ (completion (some tclln) in_buf).1.map tclln_data.tcl_interp = some tclln.tcl_interp
    ∧ (completion (some tclln) in_buf).1.map tclln_data.completion_arg_table
        = some tclln.completion_arg_table
    ∧ completion none in_buf = (none, []) := by
  have hspace : ∀ c, c ∈ in_buf.drop (com_start in_buf) → isspace c = true := by
    rcases h with h | ⟨o, ho, h⟩ | h
    · subst h
      intro c hc
      simp at hc
    · subst h
      intro c hc
      rw [com_start_opener o ho] at hc
      simp at hc
    · exact h
  obtain ⟨hlen, habort⟩ := classify_abort_of_space in_buf hspace
  refine ⟨hlen, habort, ?_, ?_, ?_, rfl⟩
  all_goals
    by_cases hnil : in_buf = []
    · subst hnil
      simp [completion, strcmp]
    · rw [completion_some tclln in_buf hnil]
      simp [completion_generate, habort, g_list_sort, fill_completion]

/-- C9 at the buffer `[`, a sole unmatched opener. -/
theorem C9_no_candidate_safety_witness :
    (completion (some string_session) "[".toList).2 = []
    ∧ (completion (some string_session) "[".toList).1.map tclln_data.tcl_interp
        = some string_session.tcl_interp :=
  ⟨(C9_no_candidate_safety string_session "[".toList
      (Or.inr (Or.inl ⟨'[', by decide, by decide⟩))).2.2.1,
   (C9_no_candidate_safety string_session "[".toList
      (Or.inr (Or.inl ⟨'[', by decide, by decide⟩))).2.2.2.1⟩

/-! ## Facts about the forward and backward loops of the scan -/

theorem char_at_drop (s : CStr) (k i : Nat) : char_at (s.drop k) i = char_at s (k + i) := by
  simp [char_at, List.getD_eq_getElem?_getD, List.getElem?_drop]

theorem char_at_append_right (P F : CStr) (i : Nat) :
    char_at (P ++ F) (P.length + i) = char_at F i := by
  rw [← char_at_drop, List.drop_left]

theorem isspace_NUL : isspace NUL = false := by decide

theorem isspace_char_at_of_forall (s : CStr) (h : ∀ c, c ∈ s → isspace c = false) (i : Nat) :
    isspace (char_at s i) = false := by
  by_cases hi : i < s.length
  · rw [char_at, List.getD_eq_getElem _ _ hi]
    exact h _ (List.getElem_mem hi)
  · rw [char_at, List.getD_eq_default _ _ (by omega)]
    exact isspace_NUL

theorem skip_space_append (ws rest : CStr) (pos_cmd : Nat) (h : ∀ c, c ∈ ws → isspace c = true) :
    skip_space (ws ++ rest) pos_cmd = skip_space rest (pos_cmd + ws.length) := by
  induction ws generalizing pos_cmd with
  | nil => rfl
  | cons c ws ih =>
    have hc : isspace c = true := h c (List.mem_cons_self _ _)
    have hrest : ∀ d, d ∈ ws → isspace d = true := fun d hd => h d (List.mem_cons_of_mem _ hd)
    have e : pos_cmd + 1 + ws.length = pos_cmd + (ws.length + 1) := by omega
    rw [List.cons_append, skip_space]
    simp only [hc, isspace_ne_NUL hc, Bool.and_self, if_true]
    rw [ih _ hrest, List.length_cons, e]

theorem skip_space_stop (c : Char) (rest : CStr) (pos_cmd : Nat) (h : isspace c = false) :
    skip_space (c :: rest) pos_cmd = pos_cmd := by
  simp [skip_space, h]

theorem token_len_append (tok rest : CStr) (len_cmd : Nat)
    (h : ∀ c, c ∈ tok → isspace c = false ∧ c ≠ NUL) :
    token_len (tok ++ rest) len_cmd = token_len rest (len_cmd + tok.length) := by
  induction tok generalizing len_cmd with
  | nil => rfl
  | cons c tok ih =>
    obtain ⟨hc, hn⟩ := h c (List.mem_cons_self _ _)
    have hrest : ∀ d, d ∈ tok → isspace d = false ∧ d ≠ NUL :=
      fun d hd => h d (List.mem_cons_of_mem _ hd)
    have hb : (c != NUL) = true := by simpa using hn
    have e : len_cmd + 1 + tok.length = len_cmd + (tok.length + 1) := by omega
    rw [List.cons_append, token_len]
    simp only [hc, hb, Bool.not_false, Bool.and_self, if_true]
    rw [ih _ hrest, List.length_cons, e]

theorem le_token_len (s : CStr) (len_cmd : Nat) : len_cmd ≤ token_len s len_cmd := by
  induction s generalizing len_cmd with
  | nil => exact le_refl _
  | cons c rest ih =>
    rw [token_len]
    split
    · exact Nat.le_trans (Nat.le_succ _) (ih _)
    · exact le_refl _

theorem scan_back_nonspace (in_buf : CStr) (pos_cmd pos_start : Nat) (hq : pos_cmd ≤ pos_start)
    (h : ∀ j, pos_cmd < j → j ≤ pos_start → isspace (char_at in_buf j) = false) :
    scan_back in_buf pos_cmd pos_start = pos_cmd := by
  induction pos_start with
  | zero =>
    have h0 : pos_cmd = 0 := by omega
    rw [h0]
    rfl
  | succ p ih =>
    rcases Nat.eq_or_lt_of_le hq with heq | hlt
    · rw [heq]
      exact scan_back_self _ _
    · have hsp := h (p + 1) hlt (le_refl _)
      have hdec : decide (p + 1 > pos_cmd) = true := by simpa using hlt
      rw [scan_back]
      simp only [hsp, hdec, Bool.not_false, Bool.and_self, if_true]
      exact ih (by omega) (fun j hj hjp => h j hj (by omega))

/-! ## Command context -/

/-- C4: when the fragment after `comStart` is whitespace followed by a single
non-empty whitespace-free token that does not begin with `$`, then
`baseStart = cmdStart`, and the scan is a Command context whose base is that
token and whose `replacementStart` is `cmdStart`, the index of the token. -/
theorem C4_command_context (in_buf ws tok : CStr)
    (hfrag : in_buf.drop (com_start in_buf) = ws ++ tok)
    (hws : ∀ c, c ∈ ws → isspace c = true)
    (htok : tok ≠ [])
    (hfree : ∀ c, c ∈ tok → isspace c = false ∧ c ≠ NUL)
    (hdollar : tok.head? ≠ some '$') :
    (scan in_buf).pos_cmd = com_start in_buf + ws.length
    ∧ (scan in_buf).pos_start = (scan in_buf).pos_cmd
    ∧ classify in_buf = Context.command tok (com_start in_buf + ws.length)
    ∧ (classify in_buf).replacement_start = (scan in_buf).pos_cmd := by
  obtain ⟨t, tok', rfl⟩ := List.exists_cons_of_ne_nil htok
  have ht := hfree t (List.mem_cons_self _ _)
  have hle := com_start_le in_buf
  have hlenF : in_buf.length - com_start in_buf = ws.length + (t :: tok').length := by
    rw [← List.length_drop, hfrag, List.length_append]
  have hpos : (scan in_buf).pos_cmd = com_start in_buf + ws.length := by
    rw [scan_pos_cmd, hfrag, skip_space_append _ _ _ hws, skip_space_stop _ _ _ ht.1]
  have hdrop : in_buf.drop (scan in_buf).pos_cmd = t :: tok' := by
    rw [hpos, ← List.drop_drop, hfrag, List.drop_left]
  have hlen : (scan in_buf).len_cmd = (t :: tok').length := by
    rw [scan_len_cmd, hdrop]
    have h := token_len_append (t :: tok') [] 0 hfree
    rw [List.append_nil] at h
    rw [h]
    simp [token_len]
  have hcmd : (scan in_buf).str_cmd = t :: tok' := by
    rw [scan_str_cmd, hdrop, hlen, List.take_length]
  have hback : scan_back in_buf (scan in_buf).pos_cmd in_buf.length = (scan in_buf).pos_cmd := by
    apply scan_back_nonspace
    · rw [hpos]
      omega
    · intro j hj _
      have hj2 : j = (scan in_buf).pos_cmd + (j - (scan in_buf).pos_cmd) := by omega
      rw [hj2, ← char_at_drop, hdrop]
      exact isspace_char_at_of_forall _ (fun c hc => (hfree c hc).1) _
  have hstart : (scan in_buf).pos_start = (scan in_buf).pos_cmd := by
    rw [scan_pos_start, hback]
    simp
  have hhead : ¬ t = '$' := by
    intro h
    apply hdollar
    simp [h]
  have hcl : classify in_buf = Context.command (t :: tok') (com_start in_buf + ws.length) := by
    unfold classify classify_scan
    simp [hstart, hlen, hcmd, hhead, hpos]
  refine ⟨hpos, hstart, hcl, ?_⟩
  rw [hcl, hpos]
  rfl

/-- C4, the spec's instance: the buffer `se` is a Command context on `se` with
`replacementStart` 0. -/
theorem C4_command_context_witness :
    classify "se".toList = Context.command "se".toList 0 :=
  (C4_command_context "se".toList [] "se".toList (by decide) (by decide) (by decide)
    (by decide) (by decide)).2.2.1

/-! ## Variable context -/

/-- C5: when the text from `baseStart` to the end of the buffer is `$` followed
by at least one character, the scan is a Variable context, whether or not
`baseStart = cmdStart`; its base is that text without the `$` and its
`replacementStart` is the index after the `$`.  When the text is the `$` alone
the scan aborts and `completion` hands no line to the editor and evaluates no
script. -/
theorem C5_variable_context (tclln : tclln_data) (in_buf : CStr) :
    (∀ c rest, (scan in_buf).str_base = '$' :: c :: rest → c ≠ NUL →
        classify in_buf
          = Context.variable (scan in_buf).str_cmd (c :: rest) ((scan in_buf).pos_start + 1)
        ∧ char_at in_buf (scan in_buf).pos_start = '$')
    ∧ ((scan in_buf).str_base = ['$'] →
        classify in_buf = Context.abort
        ∧ (completion (some tclln) in_buf).2 = []
        ∧ (completion (some tclln) in_buf).1.map tclln_data.tcl_interp = some tclln.tcl_interp) := by
  have hdollar : isspace '$' = false := by decide
  have hdn : ('$' != NUL) = true := by decide
  have key : ∀ rest, (scan in_buf).str_base = '$' :: rest →
      ¬ ((scan in_buf).pos_start = (scan in_buf).pos_cmd ∧ (scan in_buf).len_cmd = 0)
      ∧ ¬ ((scan in_buf).pos_start = (scan in_buf).pos_cmd
            ∧ (scan in_buf).str_cmd.headD NUL ≠ '$') := by
    intro rest hbase
    have hlen : (scan in_buf).pos_start = (scan in_buf).pos_cmd → 0 < (scan in_buf).len_cmd := by
      intro heq
      rw [scan_len_cmd, ← heq, ← scan_str_base, hbase, token_len]
      simp only [hdollar, hdn, Bool.not_false, Bool.and_self, if_true]
      exact Nat.lt_of_lt_of_le (by omega) (le_token_len rest 1)
    refine ⟨fun h => ?_, fun h => ?_⟩
    · have := hlen h.1
      omega
    · apply h.2
      have hpos := hlen h.1
      rw [scan_str_cmd, ← h.1, ← scan_str_base, hbase]
      obtain ⟨m, hm⟩ : ∃ m, (scan in_buf).len_cmd = m + 1 := ⟨(scan in_buf).len_cmd - 1, by omega⟩
      rw [hm]
      rfl
  refine ⟨?_, ?_⟩
  · intro c rest hbase hc
    obtain ⟨h1, h2⟩ := key (c :: rest) hbase
    refine ⟨?_, ?_⟩
    · unfold classify classify_scan
      simp only [h1, h2, if_false, hbase]
      simp [hc]
    · have h := char_at_drop in_buf (scan in_buf).pos_start 0
      rw [← scan_str_base, hbase] at h
      simpa [char_at] using h.symm
  · intro hbase
    obtain ⟨h1, h2⟩ := key [] hbase
    have habort : classify in_buf = Context.abort := by
      unfold classify classify_scan
      simp only [h1, h2, if_false, hbase]
      simp
    have hne : in_buf ≠ [] := by
      intro hnil
      rw [scan_str_base, hnil] at hbase
      simp at hbase
    refine ⟨habort, ?_, ?_⟩
    · rw [completion_some tclln in_buf hne]
      simp [completion_generate, habort, g_list_sort, fill_completion]
    · rw [completion_some tclln in_buf hne]
      simp [completion_generate, habort]

/-- C5, the spec's instance: the buffer `puts $my` is a Variable context on `my`
with `replacementStart` 6, the index after the `$`. -/
theorem C5_variable_context_witness :
    classify "puts $my".toList = Context.variable "puts".toList "my".toList 6
    ∧ char_at "puts $my".toList 5 = '$' :=
  (C5_variable_context string_session "puts $my".toList).1 'm' ['y'] (by decide) (by decide)

/-! ## Locality of the scan -/

theorem skip_space_shift (s : CStr) (pos_cmd : Nat) :
    skip_space s pos_cmd = pos_cmd + skip_space s 0 := by
  induction s generalizing pos_cmd with
  | nil => rfl
  | cons c rest ih =>
    rw [skip_space, skip_space]
    split
    · rw [ih (pos_cmd + 1), ih (0 + 1)]
      omega
    · rfl

theorem scan_back_shift (P F : CStr) (q p : Nat) :
    scan_back (P ++ F) (P.length + q) (P.length + p) = P.length + scan_back F q p := by
  induction p with
  | zero =>
    cases hP : P.length with
    | zero => rfl
    | succ m => simp [scan_back]
  | succ p ih =>
    have e : P.length + (p + 1) = (P.length + p) + 1 := by omega
    have hdec : decide (P.length + p + 1 > P.length + q) = decide (p + 1 > q) := by
      simp only [gt_iff_lt, decide_eq_decide]
      omega
    rw [e, scan_back, scan_back, ← e, char_at_append_right, e, hdec, ih]
    split
    · rfl
    · omega

theorem scan_at_append (P F : CStr) :
    scan_at P.length (P ++ F) = (scan_at 0 F).shift P.length := by
  have h1 : skip_space ((P ++ F).drop P.length) P.length = P.length + skip_space F 0 := by
    rw [List.drop_left, skip_space_shift]
  have h2 : ∀ k, (P ++ F).drop (P.length + k) = F.drop k := by
    intro k
    rw [← List.drop_drop, List.drop_left]
  have h3 : (P ++ F).length = P.length + F.length := List.length_append _ _
  unfold scan_at Scan.shift
  simp only [h1, h2, h3, scan_back_shift, List.drop_zero, Nat.add_lt_add_iff_left, gt_iff_lt]
  split <;> simp [h2, Nat.add_assoc]

theorem classify_scan_shift (n : Nat) (s : Scan) :
    classify_scan (s.shift n) = (classify_scan s).shift n := by
  unfold classify_scan Scan.shift
  simp only [Nat.add_left_cancel_iff]
  split_ifs <;> simp [Context.shift, Nat.add_assoc]

theorem classify_append (P F : CStr) (hP : com_start (P ++ F) = P.length)
    (hF : com_start F = 0) :
    classify (P ++ F) = (classify F).shift P.length := by
  unfold classify scan
  rw [hP, hF, scan_at_append, classify_scan_shift]

theorem drop_append_add (P F : CStr) (k : Nat) : (P ++ F).drop (P.length + k) = F.drop k := by
  rw [← List.drop_drop, List.drop_left]

theorem is_closer_of_is_opener {o : Char} (ho : is_opener o = true) : is_closer o = false := by
  simp only [is_opener, Bool.or_eq_true, beq_iff_eq] at ho
  rcases ho with h | h <;> subst h <;> decide

theorem com_start_after_opener (P F : CStr) (o : Char) (ho : is_opener o = true)
    (hsuffix : ∀ j, ¬ more_openers F j) (hbal : closers F ≤ openers F) :
    com_start (P ++ o :: F) = P.length + 1 := by
  apply com_start_unique
  · have h := drop_append_add P (o :: F) 0
    simp only [Nat.add_zero, List.drop_zero] at h
    simp only [more_openers, h, closers, openers, List.countP_cons, ho,
      is_closer_of_is_opener ho]
    simp only [closers, openers] at hbal
    simp
    omega
  · intro j hj hmore
    obtain ⟨k, rfl⟩ : ∃ k, j = P.length + (k + 1) := ⟨j - P.length - 1, by omega⟩
    apply hsuffix k
    simpa [more_openers, drop_append_add] using hmore

/-! ## Nested-bracket locality -/

/-- C6, as amended: for every prefix `P`, opener `o` and fragment `F` that has as
many openers as closers and no suffix with more openers than closers, the scan
of `P ++ o ++ F` is the scan of `F` alone (same context kind, command token
and base token) with `replacementStart` moved right by `length P + 1`. -/
theorem C6_nested_bracket_locality (P F : CStr) (o : Char) (ho : is_opener o = true)
    (hsuffix : ∀ j, ¬ more_openers F j) (hbal : closers F ≤ openers F) :
    com_start (P ++ o :: F) = P.length + 1
    ∧ classify (P ++ o :: F) = (classify F).shift (P.length + 1) := by
  have hc := com_start_after_opener P F o ho hsuffix hbal
  refine ⟨hc, ?_⟩
  have hsplit : P ++ o :: F = (P ++ [o]) ++ F := by simp
  have hlen : (P ++ [o]).length = P.length + 1 := by simp
  rw [hsplit] at hc ⊢
  rw [← hlen] at hc ⊢
  exact classify_append (P ++ [o]) F hc (com_start_eq_zero F hsuffix)

theorem no_more_openers_of_bounded (F : CStr)
    (h : ∀ j, j < F.length → ¬ more_openers F j) : ∀ j, ¬ more_openers F j := by
  intro j
  by_cases hj : j < F.length
  · exact h j hj
  · exact more_openers_of_length_le F j (by omega)

/-- C6, the spec's instance: `expr {[format %` is scanned as `format %`, an
Argument context of `format` on `%`. -/
theorem C6_nested_bracket_locality_witness :
    classify "format %".toList = Context.argument "format".toList "%".toList 7
    ∧ classify ("expr \x7b".toList ++ '[' :: "format %".toList)
        = Context.argument "format".toList "%".toList 14 := by
  have h := (C6_nested_bracket_locality "expr \x7b".toList "format %".toList '[' (by decide)
    (no_more_openers_of_bounded _ (by decide)) (by decide)).2
  refine ⟨by decide, ?_⟩
  rw [h]
  decide

/-- C6 as stated fails: the fragment `a] b` has no suffix with more openers than
closers, yet in `x [a] b` the `[` is matched by the `]` of the fragment, the walk
runs on to the start of the buffer and the command token is `x`, not `a]`. -/
theorem C6_counterexample :
    is_opener '[' = true
    ∧ (∀ j, ¬ more_openers "a] b".toList j)
    ∧ classify "a] b".toList = Context.argument "a]".toList "b".toList 3
    ∧ classify ("x ".toList ++ '[' :: "a] b".toList) = Context.argument "x".toList "b".toList 6
    ∧ classify ("x ".toList ++ '[' :: "a] b".toList)
        ≠ (classify "a] b".toList).shift ("x ".toList.length + 1) :=
  ⟨by decide, no_more_openers_of_bounded _ (by decide), by decide, by decide, by decide⟩

/-! ## Namespace stripping -/

theorem classify_eq_shift_fragment (in_buf : CStr) :
    classify in_buf
      = (classify (in_buf.drop (com_start in_buf))).shift (com_start in_buf) := by
  have hlen : (in_buf.take (com_start in_buf)).length = com_start in_buf := by
    rw [List.length_take]
    exact Nat.min_eq_left (com_start_le in_buf)
  have h := classify_append (in_buf.take (com_start in_buf)) (in_buf.drop (com_start in_buf))
    (by rw [List.take_append_drop, hlen])
    (com_start_eq_zero _ (com_start_drop in_buf))
  rw [List.take_append_drop, hlen] at h
  exact h

theorem source_shift (n : Nat) (X : Context) : (X.shift n).source = X.source := by
  cases X <;> rfl

theorem completion_generate_args_key (arg_table : GTree) (res_list : List CStr)
    (c₁ c₂ base : CStr) (h : lookup_key c₁ = lookup_key c₂) :
    completion_generate_args arg_table res_list c₁ base
      = completion_generate_args arg_table res_list c₂ base := by
  unfold completion_generate_args
  rw [h]

theorem completion_list_of_source (tclln : tclln_data) (b₁ b₂ : CStr)
    (h : (classify b₁).source = (classify b₂).source) :
    (completion_generate { tclln with completion_begin := b₁ }).completion_list
      = (completion_generate { tclln with completion_begin := b₂ }).completion_list := by
  unfold completion_generate
  cases h₁ : classify b₁ <;> cases h₂ : classify b₂ <;>
    simp only [h₁, h₂, Context.source, Context.command.injEq, Context.variable.injEq,
      Context.argument.injEq, reduceCtorEq] at h <;>
    simp only [h₁, h₂]
  · rw [h.1]
  · rw [h.2.1]
  · rw [h.2.1]
    exact completion_generate_args_key _ _ _ _ _ h.1

theorem scan_back_mono (in_buf : CStr) (q q₀ p : Nat) (hq : q₀ ≤ q)
    (h : isspace (char_at in_buf (scan_back in_buf q p)) = true) :
    scan_back in_buf q₀ p = scan_back in_buf q p := by
  induction p with
  | zero => rfl
  | succ p ih =>
    rw [scan_back] at h ⊢
    rw [scan_back]
    by_cases hc : (!isspace (char_at in_buf (p + 1)) && decide (p + 1 > q)) = true
    · rw [if_pos hc] at h ⊢
      have hc₀ : (!isspace (char_at in_buf (p + 1)) && decide (p + 1 > q₀)) = true := by
        simp only [Bool.and_eq_true, decide_eq_true_eq] at hc ⊢
        exact ⟨hc.1, by omega⟩
      rw [if_pos hc₀]
      exact ih h
    · rw [if_neg hc] at h ⊢
      have hc₀ : ¬ (!isspace (char_at in_buf (p + 1)) && decide (p + 1 > q₀)) = true := by
        simp [h]
      rw [if_neg hc₀]

theorem scan_back_zero_space (F : CStr) (p : Nat) (h0 : isspace (char_at F 0) = true) :
    isspace (char_at F (scan_back F 0 p)) = true := by
  induction p with
  | zero => exact h0
  | succ p ih =>
    rw [scan_back]
    by_cases hc : (!isspace (char_at F (p + 1)) && decide (p + 1 > 0)) = true
    · rw [if_pos hc]
      exact ih
    · rw [if_neg hc]
      simpa using hc

theorem scan_token_space (tok rest : CStr) (sp : Char) (htokne : tok ≠ [])
    (htok : ∀ c, c ∈ tok → isspace c = false ∧ c ≠ NUL) (hsp : isspace sp = true)
    (hc0 : com_start (tok ++ sp :: rest) = 0) :
    scan (tok ++ sp :: rest)
      = Scan.mk 0 tok.length (tok.length + scan_back (sp :: rest) 0 (sp :: rest).length + 1) tok
          ((sp :: rest).drop (scan_back (sp :: rest) 0 (sp :: rest).length + 1)) := by
  obtain ⟨t, tok', rfl⟩ := List.exists_cons_of_ne_nil htokne
  have ht := htok t (List.mem_cons_self _ _)
  have hskip : skip_space ((t :: tok') ++ sp :: rest) 0 = 0 := skip_space_stop _ _ _ ht.1
  have hlen : token_len ((t :: tok') ++ sp :: rest) 0 = (t :: tok').length := by
    rw [token_len_append _ _ _ htok, token_len]
    simp [hsp]
  have hback : scan_back ((t :: tok') ++ sp :: rest) 0 ((t :: tok') ++ sp :: rest).length
      = (t :: tok').length + scan_back (sp :: rest) 0 (sp :: rest).length := by
    have hshift := scan_back_shift (t :: tok') (sp :: rest) 0 (sp :: rest).length
    rw [Nat.add_zero, ← List.length_append] at hshift
    rw [← hshift]
    apply scan_back_mono _ _ _ _ (Nat.zero_le _)
    rw [hshift, char_at_append_right]
    exact scan_back_zero_space _ _ (by simpa [char_at] using hsp)
  have hdrop : ((t :: tok') ++ sp :: rest).drop
      ((t :: tok').length + scan_back (sp :: rest) 0 (sp :: rest).length + 1)
      = (sp :: rest).drop (scan_back (sp :: rest) 0 (sp :: rest).length + 1) := by
    rw [Nat.add_assoc, drop_append_add]
  unfold scan scan_at
  simp only [hc0, List.drop_zero, hskip, hlen, hback, List.take_left]
  have hpos : (t :: tok').length + scan_back (sp :: rest) 0 (sp :: rest).length > 0 := by
    simp
  simp only [hpos, if_true, hdrop]

theorem source_token_space (tok₁ tok₂ : CStr) (l₁ l₂ p₁ p₂ : Nat) (sb : CStr)
    (hkey : lookup_key tok₁ = lookup_key tok₂) :
    (classify_scan (Scan.mk 0 l₁ (p₁ + 1) tok₁ sb)).source
      = (classify_scan (Scan.mk 0 l₂ (p₂ + 1) tok₂ sb)).source := by
  unfold classify_scan
  simp only [Nat.add_one_ne_zero, false_and, if_false]
  split_ifs <;> simp [Context.source, hkey]

theorem not_more_openers_colons (R : CStr) (h : ∀ j, ¬ more_openers R j) :
    ∀ j, ¬ more_openers (':' :: ':' :: R) j := by
  have hc : is_closer ':' = false := by decide
  have ho : is_opener ':' = false := by decide
  have h0 := h 0
  intro j
  match j with
  | 0 => simpa [more_openers, closers, openers, List.countP_cons, hc, ho] using h0
  | 1 => simpa [more_openers, closers, openers, List.countP_cons, hc, ho] using h0
  | k + 2 => simpa [more_openers] using h k

theorem com_start_colons (R : CStr) :
    (com_start R = 0 ∧ com_start (':' :: ':' :: R) = 0)
    ∨ (com_start (':' :: ':' :: R) = com_start R + 2) := by
  obtain ⟨_, hafter, hat⟩ := com_start_spec R
  by_cases hc : com_start R = 0
  · left
    refine ⟨hc, com_start_eq_zero _ (not_more_openers_colons R ?_)⟩
    intro j
    exact hafter j (by omega)
  · right
    have hm := hat (by omega)
    have h := com_start_unique (':' :: ':' :: R) (com_start R - 1 + 2)
      (by simpa [more_openers] using hm)
      (by
        intro j hj
        obtain ⟨k, rfl⟩ : ∃ k, j = k + 2 := ⟨j - 2, by omega⟩
        have := hafter k (by omega)
        simpa [more_openers] using this)
    rw [h]
    omega

theorem lookup_key_colons (n : CStr) (hn : n ≠ []) : lookup_key (':' :: ':' :: n) = n := by
  have hlen : 0 < n.length := List.length_pos.2 hn
  simp [lookup_key, char_at, hlen]

theorem source_colons (n b : CStr) (hn : n ≠ [])
    (htok : ∀ c, c ∈ n → isspace c = false ∧ c ≠ NUL) (hkey : lookup_key n = n) :
    (classify (':' :: ':' :: (n ++ ' ' :: b))).source = (classify (n ++ ' ' :: b)).source := by
  have hsp : isspace ' ' = true := by decide
  rcases com_start_colons (n ++ ' ' :: b) with ⟨hR, hB⟩ | hshift
  · have hcolon : isspace ':' = false ∧ ':' ≠ NUL := by decide
    have htok₁ : ∀ c, c ∈ ':' :: ':' :: n → isspace c = false ∧ c ≠ NUL := by
      intro c hc
      simp only [List.mem_cons] at hc
      rcases hc with h | h | h
      · rw [h]; exact hcolon
      · rw [h]; exact hcolon
      · exact htok c h
    have h₁ := scan_token_space (':' :: ':' :: n) b ' ' (List.cons_ne_nil _ _) htok₁ hsp hB
    have h₂ := scan_token_space n b ' ' hn htok hsp hR
    have e : ':' :: ':' :: (n ++ ' ' :: b) = (':' :: ':' :: n) ++ ' ' :: b := rfl
    unfold classify
    rw [e, h₁, h₂]
    apply source_token_space
    rw [lookup_key_colons n hn, hkey]
  · rw [classify_eq_shift_fragment (':' :: ':' :: (n ++ ' ' :: b)),
      classify_eq_shift_fragment (n ++ ' ' :: b), hshift, source_shift, source_shift]
    rfl

/-- C7, as amended: a command token `::n` with `n` non-empty is looked up under
`n`, so in Argument context the candidates are the entries registered for `n`
that start with the base; and when `n` does not itself lose a leading `::` at
lookup, completing `::n b` yields the same candidates as completing `n b`. -/
theorem C7_namespace_stripping (tclln : tclln_data) (n b : CStr) (hn : n ≠ [])
    (htok : ∀ c, c ∈ n → isspace c = false ∧ c ≠ NUL) :
    lookup_key (':' :: ':' :: n) = n
    ∧ (∀ base, completion_generate_args tclln.completion_arg_table [] (':' :: ':' :: n) base
        = if base = [] then []
          else ((lookup_list tclln.completion_arg_table n).filter
                  (fun elem => decide (base <+: elem))).reverse)
    ∧ (lookup_key n = n →
        (completion (some tclln) (':' :: ':' :: (n ++ ' ' :: b))).1.map tclln_data.completion_list
          = (completion (some tclln) (n ++ ' ' :: b)).1.map tclln_data.completion_list) := by
  refine ⟨lookup_key_colons n hn, ?_, ?_⟩
  · intro base
    rw [completion_generate_args_eq, lookup_key_colons n hn]
  · intro hkey
    have hR : n ++ ' ' :: b ≠ [] := by simp [hn]
    rw [completion_some tclln _ (List.cons_ne_nil _ _), completion_some tclln _ hR]
    simp only [Option.map_some']
    rw [completion_list_of_source tclln _ _ (source_colons n b hn htok hkey)]

/-- C7, the spec's instance: `::string ma` is looked up under `string` and yields
the candidates of `string ma`. -/
theorem C7_namespace_stripping_witness :
    lookup_key "::string".toList = "string".toList
    ∧ (completion (some string_session) "::string ma".toList).1.map tclln_data.completion_list
        = (completion (some string_session) "string ma".toList).1.map tclln_data.completion_list
    ∧ (completion (some string_session) "string ma".toList).1.map tclln_data.completion_list
        = some ["map".toList, "match".toList] :=
  ⟨(C7_namespace_stripping string_session "string".toList "ma".toList (by decide) (by decide)).1,
   (C7_namespace_stripping string_session "string".toList "ma".toList (by decide) (by decide)).2.2
     (by decide),
   by decide⟩

/-- C7 as stated fails when `n` itself begins with `::`: with `foo` registered
with `bar`, the command token `::::foo` is looked up under `::foo`, which has no
entry, while the command token `::foo` is looked up under `foo`. -/
theorem C7_counterexample :
    classify "::::foo b".toList = Context.argument ("::".toList ++ "::foo".toList) "b".toList 8
    ∧ "::foo".toList ≠ []
    ∧ lookup_key ("::".toList ++ "::foo".toList) = "::foo".toList
    ∧ (completion (some foo_session) ("::".toList ++ "::foo".toList ++ " ".toList ++ "b".toList)).1.map
          tclln_data.completion_list = some []
    ∧ (completion (some foo_session) ("::foo".toList ++ " ".toList ++ "b".toList)).1.map
          tclln_data.completion_list = some ["bar".toList] := by
  decide

/-! ## What the generators produce -/

theorem eval_step (interp : Tcl_Interp) (res_list : List CStr) (script : CStr) :
    (match Tcl_Eval interp script with
      | (interp, some result) => (interp, completion_add_tcl_result result res_list)
      | (interp, none) => (interp, res_list))
      = ({ interp with log := interp.log ++ [script] },
         (contribution interp script).reverse ++ res_list) := by
  unfold Tcl_Eval contribution
  cases h : interp.answer script <;> simp [completion_add_tcl_result, prepend_all_eq]

theorem completion_generate_tcl_procs_eq (interp : Tcl_Interp) (res_list : List CStr) (base : CStr) :
    completion_generate_tcl_procs interp res_list base
      = ({ interp with log := interp.log ++ [commands_query base, procs_query base] },
         (contribution interp (procs_query base)).reverse
           ++ ((contribution interp (commands_query base)).reverse ++ res_list)) := by
  unfold completion_generate_tcl_procs
  rw [← commands_query, ← procs_query]
  simp only [eval_step]
  simp [contribution]

theorem completion_generate_tcl_vars_eq (interp : Tcl_Interp) (res_list : List CStr) (base : CStr) :
    completion_generate_tcl_vars interp res_list base
      = ({ interp with log := interp.log ++ [vars_query base] },
         (contribution interp (vars_query base)).reverse ++ res_list) := by
  unfold completion_generate_tcl_vars
  rw [← vars_query]
  simp only [eval_step]

theorem completion_generate_command (tclln : tclln_data) (in_buf str_cmd : CStr) (pos_cmd : Nat)
    (hctx : classify in_buf = Context.command str_cmd pos_cmd) :
    completion_generate { tclln with completion_begin := in_buf }
      = { tclln with
          tcl_interp :=
            { tclln.tcl_interp with
              log := tclln.tcl_interp.log ++ [commands_query str_cmd, procs_query str_cmd] },
          completion_list :=
            (contribution tclln.tcl_interp (procs_query str_cmd)).reverse
              ++ (contribution tclln.tcl_interp (commands_query str_cmd)).reverse,
          completion_begin := in_buf.take pos_cmd } := by
  unfold completion_generate
  simp only [hctx, completion_generate_tcl_procs_eq, List.append_nil]

theorem completion_generate_variable (tclln : tclln_data) (in_buf str_cmd str_base : CStr)
    (pos_start : Nat) (hctx : classify in_buf = Context.variable str_cmd str_base pos_start) :
    completion_generate { tclln with completion_begin := in_buf }
      = { tclln with
          tcl_interp :=
            { tclln.tcl_interp with log := tclln.tcl_interp.log ++ [vars_query str_base] },
          completion_list := (contribution tclln.tcl_interp (vars_query str_base)).reverse,
          completion_begin := in_buf.take pos_start } := by
  unfold completion_generate
  simp only [hctx, completion_generate_tcl_vars_eq, List.append_nil]

/-- The lines `completion` hands to the line editor when the scan does not abort. -/
theorem completion_lines (tclln : tclln_data) (in_buf : CStr)
    (hctx : classify in_buf ≠ Context.abort) :
    (completion (some tclln) in_buf).2
      = (g_list_sort
          (completion_generate { tclln with completion_begin := in_buf }).completion_list).map
          (fun candidate => in_buf.take (classify in_buf).replacement_start ++ candidate) := by
  rw [completion_some tclln in_buf (classify_ne_nil hctx)]
  simp only
  rw [completion_generate_begin tclln in_buf hctx, fill_completion_eq]

theorem nodup_lines (p : CStr) (l : List CStr) :
    ((g_list_sort l).map (fun candidate => p ++ candidate)).Nodup ↔ l.Nodup := by
  rw [List.nodup_map_iff (List.append_right_injective p)]
  exact (g_list_sort_perm l).nodup_iff

theorem perm_of_reverse_append (l₁ l₂ : List CStr) :
    (g_list_sort (l₂.reverse ++ l₁.reverse)).Perm (l₁ ++ l₂) :=
  (g_list_sort_perm _).trans
    ((List.perm_append_comm).trans ((List.reverse_perm l₁).append (List.reverse_perm l₂)))

/-! ## Duplicates among the candidates -/

/-- C11, as amended: `completion` has no deduplication step.  The candidates it
delivers are a permutation of what the sources supply, sorted ascending: in Command
context the commands answer followed by the procs answer, in Variable context
the variables answer, in Argument context with a non-empty base the registered
strings that start with the base.  The delivered lines contain no string twice
exactly when those sources contain none. -/
theorem C11_candidates_keep_multiplicity (tclln : tclln_data) (in_buf : CStr) :
    (∀ str_cmd pos_cmd, classify in_buf = Context.command str_cmd pos_cmd →
        (completion (some tclln) in_buf).2
          = (g_list_sort
              ((contribution tclln.tcl_interp (procs_query str_cmd)).reverse
                ++ (contribution tclln.tcl_interp (commands_query str_cmd)).reverse)).map
              (fun candidate => in_buf.take pos_cmd ++ candidate)
        ∧ (g_list_sort
              ((contribution tclln.tcl_interp (procs_query str_cmd)).reverse
                ++ (contribution tclln.tcl_interp (commands_query str_cmd)).reverse)).Perm
            (contribution tclln.tcl_interp (commands_query str_cmd)
              ++ contribution tclln.tcl_interp (procs_query str_cmd))
        ∧ ((completion (some tclln) in_buf).2.Nodup ↔
            (contribution tclln.tcl_interp (commands_query str_cmd)
              ++ contribution tclln.tcl_interp (procs_query str_cmd)).Nodup))
    ∧ (∀ str_cmd str_base pos_start,
        classify in_buf = Context.variable str_cmd str_base pos_start →
        (completion (some tclln) in_buf).2
          = (g_list_sort (contribution tclln.tcl_interp (vars_query str_base)).reverse).map
              (fun candidate => in_buf.take pos_start ++ candidate)
        ∧ (g_list_sort (contribution tclln.tcl_interp (vars_query str_base)).reverse).Perm
            (contribution tclln.tcl_interp (vars_query str_base))
        ∧ ((completion (some tclln) in_buf).2.Nodup ↔
            (contribution tclln.tcl_interp (vars_query str_base)).Nodup))
    ∧ (∀ str_cmd str_base pos_start,
        classify in_buf = Context.argument str_cmd str_base pos_start → str_base ≠ [] →
        (completion (some tclln) in_buf).2
          = (g_list_sort
              ((lookup_list tclln.completion_arg_table (lookup_key str_cmd)).filter
                (fun elem => decide (str_base <+: elem))).reverse).map
              (fun candidate => in_buf.take pos_start ++ candidate)
        ∧ (g_list_sort
              ((lookup_list tclln.completion_arg_table (lookup_key str_cmd)).filter
                (fun elem => decide (str_base <+: elem))).reverse).Perm
            ((lookup_list tclln.completion_arg_table (lookup_key str_cmd)).filter
              (fun elem => decide (str_base <+: elem)))
        ∧ ((completion (some tclln) in_buf).2.Nodup ↔
            ((lookup_list tclln.completion_arg_table (lookup_key str_cmd)).filter
              (fun elem => decide (str_base <+: elem))).Nodup)) := by
  refine ⟨?_, ?_, ?_⟩
  · intro str_cmd pos_cmd hctx
    have hlines := completion_lines tclln in_buf (by rw [hctx]; exact fun h => Context.noConfusion h)
    rw [completion_generate_command tclln in_buf str_cmd pos_cmd hctx, hctx] at hlines
    simp only [Context.replacement_start] at hlines
    refine ⟨hlines, perm_of_reverse_append _ _, ?_⟩
    rw [hlines, nodup_lines]
    exact ((List.perm_append_comm).trans
      ((List.reverse_perm _).append (List.reverse_perm _))).nodup_iff
  · intro str_cmd str_base pos_start hctx
    have hlines := completion_lines tclln in_buf (by rw [hctx]; exact fun h => Context.noConfusion h)
    rw [completion_generate_variable tclln in_buf str_cmd str_base pos_start hctx, hctx] at hlines
    simp only [Context.replacement_start] at hlines
    refine ⟨hlines, (g_list_sort_perm _).trans (List.reverse_perm _), ?_⟩
    rw [hlines, nodup_lines]
    exact (List.reverse_perm _).nodup_iff
  · intro str_cmd str_base pos_start hctx hbase
    have hlines := completion_lines tclln in_buf (by rw [hctx]; exact fun h => Context.noConfusion h)
    rw [completion_generate_argument tclln in_buf str_cmd str_base pos_start hctx, hctx] at hlines
    simp only [Context.replacement_start] at hlines
    rw [completion_generate_args_eq, if_neg hbase] at hlines
    refine ⟨hlines, (g_list_sort_perm _).trans (List.reverse_perm _), ?_⟩
    rw [hlines, nodup_lines]
    exact (List.reverse_perm _).nodup_iff

/-- C11 at the buffer `puts $my` with the variable `myvar` visible: one
candidate, delivered once. -/
theorem C11_candidates_keep_multiplicity_witness :
    classify "puts $my".toList = Context.variable "puts".toList "my".toList 6
    ∧ (completion (some (session_of [])) "puts $my".toList).2 = []
    ∧ (completion (some { session_of [] with tcl_interp := var_interp }) "puts $my".toList).2
        = ["puts $myvar".toList]
    ∧ (completion (some { session_of [] with tcl_interp := var_interp }) "puts $my".toList).2.Nodup := by
  have h := (C11_candidates_keep_multiplicity { session_of [] with tcl_interp := var_interp }
    "puts $my".toList).2.1 "puts".toList "my".toList 6 (by decide)
  refine ⟨by decide, by decide, ?_, ?_⟩
  · rw [h.1]
    decide
  · rw [h.2.2]
    decide

/-- C11 as stated fails in Command context and in Argument context: a
procedure `foo` is answered by the commands query and by the procs query and is
delivered twice; after seeding, `fconfigure -eo` delivers `-eofchar` twice. -/
theorem C11_counterexample :
    classify "fo".toList = Context.command "fo".toList 0
    ∧ (completion (some (tclln_new proc_interp)) "fo".toList).2 = ["foo".toList, "foo".toList]
    ∧ classify "fconfigure -eo".toList
        = Context.argument "fconfigure".toList "-eo".toList 11
    ∧ (completion (some (tclln_new proc_interp)) "fconfigure -eo".toList).2
        = ["fconfigure -eofchar".toList, "fconfigure -eofchar".toList]
    ∧ ¬ (completion (some (tclln_new proc_interp)) "fo".toList).2.Nodup
    ∧ ¬ (completion (some (tclln_new proc_interp)) "fconfigure -eo".toList).2.Nodup := by
  decide

/-! ## Duplicates in the registry -/

/-- C12, as amended: the list stored by `completion_table_add_command` is sorted
ascending and is a permutation of the argument sequence: every string is kept
as often as the sequence repeats it, so the stored list is free of duplicates
exactly when the sequence is. -/
theorem C12_registry_keeps_multiplicity (tclln : tclln_data) (command : CStr)
    (arg_complete_list : List CStr) :
    g_tree_lookup (completion_table_add_command tclln command arg_complete_list).completion_arg_table
        command
      = some (g_list_sort arg_complete_list.reverse)
    ∧ List.Sorted str_le (g_list_sort arg_complete_list.reverse)
    ∧ (g_list_sort arg_complete_list.reverse).Perm arg_complete_list
    ∧ ((g_list_sort arg_complete_list.reverse).Nodup ↔ arg_complete_list.Nodup) := by
  have hperm : (g_list_sort arg_complete_list.reverse).Perm arg_complete_list :=
    (g_list_sort_perm _).trans (List.reverse_perm _)
  refine ⟨?_, g_list_sort_sorted _, hperm, hperm.nodup_iff⟩
  simp [completion_table_add_command, g_tree_lookup_insert_same, prepend_all_eq]

/-- C12 as stated fails on the `fconfigure` row of the seeded table, which
repeats `-eofchar` and `-translation`: both are stored twice. -/
theorem C12_counterexample :
    g_tree_lookup
        (completion_table_add_command (session_of []) "fconfigure".toList
          (strs ["-blocking", "-buffering", "-buffersize", "-encoding", "-eofchar", "-eofchar",
            "-translation", "-translation"])).completion_arg_table "fconfigure".toList
      = some (strs ["-blocking", "-buffering", "-buffersize", "-encoding", "-eofchar", "-eofchar",
            "-translation", "-translation"])
    ∧ ¬ (strs ["-blocking", "-buffering", "-buffersize", "-encoding", "-eofchar", "-eofchar",
            "-translation", "-translation"]).Nodup := by
  decide

/-! ## Script-invoked registration -/

theorem copy_args_eq (objv : List CStr) :
    (List.range (objv.length - 2)).map (fun i => objv.getD (2 + i) []) = objv.drop 2 := by
  apply List.ext_getElem
  · simp
  · intro i h₁ h₂
    simp only [List.length_map, List.length_range] at h₁
    simp only [List.getElem_map, List.getElem_range, List.getElem_drop]
    exact List.getD_eq_getElem _ _ (by omega)

/-- C13: called with fewer than three words, `tcl_completion_add_command`
returns `TCL_ERROR`, sets the usage message as result and leaves the session,
hence the registry, as it was; called with three words or more on a session it
returns `TCL_OK` and the registry entry of `objv[1]` is the sorted list of
`objv[2..objc-1]`, the entries of the other commands being unchanged. -/
theorem C13_script_registration (client_data : Option tclln_data) (tclln : tclln_data)
    (objv : List CStr) :
    (objv.length < 3 →
        (tcl_completion_add_command client_data objv).code = TCL_ERROR
        ∧ (tcl_completion_add_command client_data objv).result
            = some (Tcl_Obj.string
                "wrong number of arguments: expeted at least command name and 1 possible argument".toList)
        ∧ (tcl_completion_add_command client_data objv).client_data = client_data)
    ∧ (3 ≤ objv.length →
        (tcl_completion_add_command (some tclln) objv).code = TCL_OK
        ∧ (tcl_completion_add_command (some tclln) objv).result = some (Tcl_Obj.boolean true)
        ∧ (tcl_completion_add_command (some tclln) objv).client_data
            = some (completion_table_add_command tclln (objv.getD 1 []) (objv.drop 2))
        ∧ g_tree_lookup
            (completion_table_add_command tclln (objv.getD 1 []) (objv.drop 2)).completion_arg_table
            (objv.getD 1 [])
            = some (g_list_sort (objv.drop 2).reverse)
        ∧ List.Sorted str_le (g_list_sort (objv.drop 2).reverse)
        ∧ (g_list_sort (objv.drop 2).reverse).Perm (objv.drop 2)
        ∧ (∀ other, other ≠ objv.getD 1 [] →
            g_tree_lookup
              (completion_table_add_command tclln (objv.getD 1 []) (objv.drop 2)).completion_arg_table
              other
              = g_tree_lookup tclln.completion_arg_table other)) := by
  refine ⟨?_, ?_⟩
  · intro h
    simp [tcl_completion_add_command, h]
  · intro h
    have hlt : ¬ objv.length < 3 := by omega
    refine ⟨?_, ?_, ?_, ?_, g_list_sort_sorted _,
      (g_list_sort_perm _).trans (List.reverse_perm _), ?_⟩
    · simp [tcl_completion_add_command, hlt]
    · simp [tcl_completion_add_command, hlt]
    · simp only [tcl_completion_add_command, hlt, if_false, copy_args_eq]
    · simp [completion_table_add_command, g_tree_lookup_insert_same, prepend_all_eq]
    · intro other hne
      simp only [completion_table_add_command]
      exact g_tree_lookup_insert_other _ _ _ _ hne

/-- C13 on the calls `tclln::add_completion foo` (a usage error) and
`tclln::add_completion foo --b --a` (registers `foo` with `--a`, `--b`). -/
theorem C13_script_registration_witness :
    (tcl_completion_add_command (some (session_of []))
        (strs ["tclln::add_completion", "foo"])).code = TCL_ERROR
    ∧ (tcl_completion_add_command (some (session_of []))
        (strs ["tclln::add_completion", "foo", "--b", "--a"])).code = TCL_OK
    ∧ g_tree_lookup
        (completion_table_add_command (session_of []) "foo".toList
          (strs ["--b", "--a"])).completion_arg_table "foo".toList
        = some (strs ["--a", "--b"]) := by
  have h₁ := (C13_script_registration (some (session_of [])) (session_of [])
    (strs ["tclln::add_completion", "foo"])).1 (by decide)
  have h₂ := (C13_script_registration (some (session_of [])) (session_of [])
    (strs ["tclln::add_completion", "foo", "--b", "--a"])).2 (by decide)
  refine ⟨h₁.1, h₂.1, ?_⟩
  decide

/-! ## Silent generator failure -/

/-- C14: in Command context with base `b`, `completion` evaluates the commands
query and then the procs query for `b` and nothing else; the candidates are a
sorted permutation of the answers of the queries that succeed, a failing query
contributing nothing, so a string is a candidate exactly when one of the two
answers holds it.  In Variable context the same holds for the single variables
query.  `completion` has no error result, and the oracle is unchanged. -/
theorem C14_silent_generator_failure (tclln : tclln_data) (in_buf : CStr) :
    (∀ b pos, classify in_buf = Context.command b pos →
        (completion (some tclln) in_buf).1.map (fun t => t.tcl_interp.log)
          = some (tclln.tcl_interp.log ++ [commands_query b, procs_query b])
        ∧ (completion (some tclln) in_buf).1.map tclln_data.completion_list
          = some (g_list_sort
              ((contribution tclln.tcl_interp (procs_query b)).reverse
                ++ (contribution tclln.tcl_interp (commands_query b)).reverse))
        ∧ (g_list_sort
              ((contribution tclln.tcl_interp (procs_query b)).reverse
                ++ (contribution tclln.tcl_interp (commands_query b)).reverse)).Perm
            (contribution tclln.tcl_interp (commands_query b)
              ++ contribution tclln.tcl_interp (procs_query b))
        ∧ (∀ x, x ∈ g_list_sort
              ((contribution tclln.tcl_interp (procs_query b)).reverse
                ++ (contribution tclln.tcl_interp (commands_query b)).reverse)
            ↔ x ∈ contribution tclln.tcl_interp (commands_query b)
              ∨ x ∈ contribution tclln.tcl_interp (procs_query b))
        ∧ (tclln.tcl_interp.answer (commands_query b) = none →
            contribution tclln.tcl_interp (commands_query b) = [])
        ∧ (tclln.tcl_interp.answer (procs_query b) = none →
            contribution tclln.tcl_interp (procs_query b) = []))
    ∧ (∀ c b pos, classify in_buf = Context.variable c b pos →
        (completion (some tclln) in_buf).1.map (fun t => t.tcl_interp.log)
          = some (tclln.tcl_interp.log ++ [vars_query b])
        ∧ (completion (some tclln) in_buf).1.map tclln_data.completion_list
          = some (g_list_sort (contribution tclln.tcl_interp (vars_query b)).reverse)
        ∧ (g_list_sort (contribution tclln.tcl_interp (vars_query b)).reverse).Perm
            (contribution tclln.tcl_interp (vars_query b))
        ∧ (tclln.tcl_interp.answer (vars_query b) = none →
            (completion (some tclln) in_buf).2 = [])) := by
  refine ⟨?_, ?_⟩
  · intro b pos hctx
    have hne : in_buf ≠ [] := classify_ne_nil (by rw [hctx]; exact fun h => Context.noConfusion h)
    have hperm := perm_of_reverse_append (contribution tclln.tcl_interp (commands_query b))
      (contribution tclln.tcl_interp (procs_query b))
    refine ⟨?_, ?_, hperm, ?_, ?_, ?_⟩
    · rw [completion_some tclln in_buf hne, completion_generate_command tclln in_buf b pos hctx]
      rfl
    · rw [completion_some tclln in_buf hne, completion_generate_command tclln in_buf b pos hctx]
      rfl
    · intro x
      rw [hperm.mem_iff, List.mem_append]
    · intro h
      simp [contribution, h]
    · intro h
      simp [contribution, h]
  · intro c b pos hctx
    have hab : classify in_buf ≠ Context.abort := by
      rw [hctx]
      exact fun h => Context.noConfusion h
    have hne : in_buf ≠ [] := classify_ne_nil hab
    refine ⟨?_, ?_, (g_list_sort_perm _).trans (List.reverse_perm _), ?_⟩
    · rw [completion_some tclln in_buf hne, completion_generate_variable tclln in_buf c b pos hctx]
      rfl
    · rw [completion_some tclln in_buf hne, completion_generate_variable tclln in_buf c b pos hctx]
      rfl
    · intro h
      rw [completion_lines tclln in_buf hab,
        completion_generate_variable tclln in_buf c b pos hctx]
      simp [contribution, h, g_list_sort]

/-- C14 at the buffer `fo` with an interpreter whose commands query fails and
whose procs query answers `foo`: both queries are evaluated, in that order, and
`foo` is the candidate. -/
theorem C14_silent_generator_failure_witness :
    flaky_interp.answer (commands_query "fo".toList) = none
    ∧ (completion (some { session_of [] with tcl_interp := flaky_interp }) "fo".toList).1.map
          (fun t => t.tcl_interp.log)
        = some ["info commands fo*\n".toList, "info procs fo*\n".toList]
    ∧ (completion (some { session_of [] with tcl_interp := flaky_interp }) "fo".toList).1.map
          tclln_data.completion_list
        = some ["foo".toList] := by
  have h := (C14_silent_generator_failure { session_of [] with tcl_interp := flaky_interp }
    "fo".toList).1 "fo".toList 0 (by decide)
  refine ⟨by decide, ?_, ?_⟩
  · rw [h.1]
    decide
  · rw [h.2.1]
    decide

/-! ## Which buffers are classified -/

theorem skip_space_take (s : CStr) : ∀ c, c ∈ s.take (skip_space s 0) → isspace c = true := by
  induction s with
  | nil => intro c hc; simp at hc
  | cons d rest ih =>
    intro c hc
    rw [skip_space] at hc
    by_cases hd : (isspace d && d != NUL) = true
    · rw [if_pos hd, skip_space_shift, Nat.add_comm, List.take_succ_cons] at hc
      rcases List.mem_cons.1 hc with h | h
      · rw [h]
        simp only [Bool.and_eq_true] at hd
        exact hd.1
      · exact ih c h
    · rw [if_neg hd] at hc
      simp at hc

theorem skip_space_drop (s : CStr) :
    s.drop (skip_space s 0) = []
    ∨ ∃ c rest, s.drop (skip_space s 0) = c :: rest ∧ (isspace c && c != NUL) = false := by
  induction s with
  | nil => left; rfl
  | cons d rest ih =>
    rw [skip_space]
    by_cases hd : (isspace d && d != NUL) = true
    · rw [if_pos hd, skip_space_shift, Nat.add_comm, List.drop_succ_cons]
      exact ih
    · rw [if_neg hd]
      right
      exact ⟨d, rest, rfl, by simpa using hd⟩

theorem token_len_zero (s : CStr) (h : token_len s 0 = 0) :
    s = [] ∨ ∃ c rest, s = c :: rest ∧ (!isspace c && c != NUL) = false := by
  cases s with
  | nil => left; rfl
  | cons c rest =>
    right
    refine ⟨c, rest, rfl, ?_⟩
    by_contra hc
    rw [token_len, if_pos (by simpa using hc)] at h
    have := le_token_len rest (0 + 1)
    omega

theorem scan_drop_pos_cmd (in_buf : CStr) :
    in_buf.drop (scan in_buf).pos_cmd
      = (in_buf.drop (com_start in_buf)).drop (skip_space (in_buf.drop (com_start in_buf)) 0) := by
  rw [scan_pos_cmd, skip_space_shift, List.drop_drop]

theorem space_of_len_cmd_zero (in_buf : CStr) (hnul : NUL ∉ in_buf)
    (hlen : (scan in_buf).len_cmd = 0) :
    ∀ c, c ∈ in_buf.drop (com_start in_buf) → isspace c = true := by
  have hdrop := scan_drop_pos_cmd in_buf
  have hnil : in_buf.drop (scan in_buf).pos_cmd = [] := by
    rw [scan_len_cmd] at hlen
    rcases token_len_zero _ hlen with h | ⟨c, rest, hc, htok⟩
    · exact h
    · exfalso
      have hmem : c ∈ in_buf := by
        apply List.mem_of_mem_drop (n := (scan in_buf).pos_cmd)
        rw [hc]
        exact List.mem_cons_self _ _
      rw [hdrop] at hc
      rcases skip_space_drop (in_buf.drop (com_start in_buf)) with h | ⟨d, rest₂, hd, hsk⟩
      · rw [h] at hc
        exact List.noConfusion hc
      · rw [hd] at hc
        have hcd : d = c := (List.cons.inj hc).1
        rw [hcd] at hsk
        apply hnul
        have hN : c = NUL := by
          by_contra hne
          have hb : (c != NUL) = true := by simpa using hne
          rw [hb] at hsk htok
          simp only [Bool.and_true] at hsk htok
          rw [hsk] at htok
          exact Bool.noConfusion htok
        rw [← hN]
        exact hmem
  rw [hdrop] at hnil
  intro c hc
  apply skip_space_take (in_buf.drop (com_start in_buf)) c
  have hle := List.drop_eq_nil_iff.1 hnil
  rw [List.take_of_length_le hle]
  exact hc

theorem dollar_base_not_early (in_buf rest : CStr) (hbase : (scan in_buf).str_base = '$' :: rest) :
    ¬ ((scan in_buf).pos_start = (scan in_buf).pos_cmd ∧ (scan in_buf).len_cmd = 0)
    ∧ ¬ ((scan in_buf).pos_start = (scan in_buf).pos_cmd
          ∧ (scan in_buf).str_cmd.headD NUL ≠ '$') := by
  have hdollar : isspace '$' = false := by decide
  have hdn : ('$' != NUL) = true := by decide
  have hlen : (scan in_buf).pos_start = (scan in_buf).pos_cmd → 0 < (scan in_buf).len_cmd := by
    intro heq
    rw [scan_len_cmd, ← heq, ← scan_str_base, hbase, token_len]
    simp only [hdollar, hdn, Bool.not_false, Bool.and_self, if_true]
    exact Nat.lt_of_lt_of_le (by omega) (le_token_len rest 1)
  refine ⟨fun h => ?_, fun h => ?_⟩
  · have := hlen h.1
    omega
  · apply h.2
    have hpos := hlen h.1
    rw [scan_str_cmd, ← h.1, ← scan_str_base, hbase]
    obtain ⟨m, hm⟩ : ∃ m, (scan in_buf).len_cmd = m + 1 := ⟨(scan in_buf).len_cmd - 1, by omega⟩
    rw [hm]
    rfl

theorem classify_lone_dollar (in_buf : CStr) (hbase : (scan in_buf).str_base = ['$']) :
    classify in_buf = Context.abort := by
  obtain ⟨h1, h2⟩ := dollar_base_not_early in_buf [] hbase
  unfold classify classify_scan
  simp only [h1, h2, if_false, hbase]
  simp

theorem classify_abort_iff (in_buf : CStr) (hnul : NUL ∉ in_buf) :
    classify in_buf = Context.abort
      ↔ ((∀ c, c ∈ in_buf.drop (com_start in_buf) → isspace c = true)
          ∨ (scan in_buf).str_base = ['$']) := by
  constructor
  · intro habort
    by_cases h1 : (scan in_buf).pos_start = (scan in_buf).pos_cmd ∧ (scan in_buf).len_cmd = 0
    · left
      exact space_of_len_cmd_zero in_buf hnul h1.2
    · right
      unfold classify classify_scan at habort
      rw [if_neg h1] at habort
      by_cases h2 : (scan in_buf).pos_start = (scan in_buf).pos_cmd
          ∧ (scan in_buf).str_cmd.headD NUL ≠ '$'
      · rw [if_pos h2] at habort
        exact Context.noConfusion habort
      · rw [if_neg h2] at habort
        by_cases h3 : (scan in_buf).str_base.headD NUL = '$'
        · rw [if_pos h3] at habort
          by_cases h4 : ((scan in_buf).str_base.drop 1).headD NUL = NUL
          · have hsub : ∀ c, c ∈ (scan in_buf).str_base → c ∈ in_buf := by
              intro c hc
              rw [scan_str_base] at hc
              exact List.mem_of_mem_drop hc
            cases hb : (scan in_buf).str_base with
            | nil =>
              rw [hb] at h3
              exact absurd h3 (by decide)
            | cons c rest =>
              rw [hb] at h3 h4 hsub
              have hc : c = '$' := h3
              cases rest with
              | nil => rw [hc]
              | cons d rest₂ =>
                exfalso
                have hd : d = NUL := h4
                apply hnul
                rw [← hd]
                exact hsub d (by simp)
          · simp only [h4, if_false] at habort
            exact Context.noConfusion habort
        · rw [if_neg h3] at habort
          exact Context.noConfusion habort
  · rintro (h | h)
    · exact (classify_abort_of_space in_buf h).2
    · exact classify_lone_dollar in_buf h

theorem kind_eq_none_iff (X : Context) : X.kind = none ↔ X = Context.abort := by
  cases X <;> simp [Context.kind]

/-- C15, as amended: a buffer is left unclassified (the scan aborts) exactly
when its fragment after `comStart` is empty or whitespace only, or the token
under the cursor is a lone `$`; every other buffer is classified into exactly
one of the three kinds Command, Variable, Argument. -/
theorem C15_classification (in_buf : CStr) (hnul : NUL ∉ in_buf) :
    ((classify in_buf).kind = none
      ↔ ((∀ c, c ∈ in_buf.drop (com_start in_buf) → isspace c = true)
          ∨ (scan in_buf).str_base = ['$']))
    ∧ (¬ ((∀ c, c ∈ in_buf.drop (com_start in_buf) → isspace c = true)
          ∨ (scan in_buf).str_base = ['$']) →
        ∃! k, (classify in_buf).kind = some k) := by
  have hiff := (kind_eq_none_iff (classify in_buf)).trans (classify_abort_iff in_buf hnul)
  refine ⟨hiff, ?_⟩
  intro hnot
  have hne : (classify in_buf).kind ≠ none := fun h => hnot (hiff.1 h)
  obtain ⟨k, hk⟩ := Option.ne_none_iff_exists'.1 hne
  refine ⟨k, hk, ?_⟩
  intro k₂ hk₂
  rw [hk] at hk₂
  exact (Option.some.inj hk₂).symm

/-- C15 at the buffer `string ma`, an Argument context. -/
theorem C15_classification_witness :
    NUL ∉ "string ma".toList
    ∧ (classify "string ma".toList).kind = some Kind.Argument
    ∧ ∃! k, (classify "string ma".toList).kind = some k :=
  ⟨by decide, by decide,
    (C15_classification "string ma".toList (by decide)).2 (by decide)⟩

/-- C15 as stated fails: the non-empty buffers `[`, a blank and `puts $` are
classified into none of the three kinds. -/
theorem C15_counterexample :
    "[".toList ≠ [] ∧ (classify "[".toList).kind = none
    ∧ " ".toList ≠ [] ∧ (classify " ".toList).kind = none
    ∧ "puts $".toList ≠ [] ∧ (classify "puts $".toList).kind = none := by
  decide

/-! ## Offsets of the scan -/

theorem skip_space_bounds (s : CStr) (pos_cmd : Nat) :
    pos_cmd ≤ skip_space s pos_cmd ∧ skip_space s pos_cmd ≤ pos_cmd + s.length := by
  induction s generalizing pos_cmd with
  | nil => exact ⟨le_refl _, le_refl _⟩
  | cons c rest ih =>
    rw [skip_space]
    split
    · obtain ⟨h1, h2⟩ := ih (pos_cmd + 1)
      rw [List.length_cons]
      exact ⟨by omega, by omega⟩
    · exact ⟨le_refl _, Nat.le_add_right _ _⟩

theorem token_len_le (s : CStr) (len_cmd : Nat) : token_len s len_cmd ≤ len_cmd + s.length := by
  induction s generalizing len_cmd with
  | nil => exact le_refl _
  | cons c rest ih =>
    rw [token_len]
    split
    · have h := ih (len_cmd + 1)
      rw [List.length_cons]
      omega
    · exact Nat.le_add_right _ _

theorem scan_back_le (in_buf : CStr) (pos_cmd pos_start : Nat) :
    scan_back in_buf pos_cmd pos_start ≤ pos_start := by
  induction pos_start with
  | zero => exact le_refl _
  | succ p ih =>
    rw [scan_back]
    split
    · exact Nat.le_succ_of_le ih
    · exact le_refl _

theorem scan_back_ge (in_buf : CStr) (pos_cmd pos_start : Nat) (h : pos_cmd ≤ pos_start) :
    pos_cmd ≤ scan_back in_buf pos_cmd pos_start := by
  induction pos_start with
  | zero => exact h
  | succ p ih =>
    rw [scan_back]
    by_cases hc : (!isspace (char_at in_buf (p + 1)) && decide (p + 1 > pos_cmd)) = true
    · rw [if_pos hc]
      simp only [Bool.and_eq_true, decide_eq_true_eq] at hc
      exact ih (by omega)
    · rw [if_neg hc]
      exact h

theorem scan_back_space (in_buf : CStr) (pos_cmd pos_start : Nat)
    (h : pos_cmd < scan_back in_buf pos_cmd pos_start) :
    isspace (char_at in_buf (scan_back in_buf pos_cmd pos_start)) = true := by
  induction pos_start with
  | zero =>
    rw [scan_back] at h
    omega
  | succ p ih =>
    rw [scan_back] at h ⊢
    by_cases hc : (!isspace (char_at in_buf (p + 1)) && decide (p + 1 > pos_cmd)) = true
    · rw [if_pos hc] at h ⊢
      exact ih h
    · rw [if_neg hc] at h ⊢
      have hgt : decide (p + 1 > pos_cmd) = true := by simpa using h
      simpa [hgt] using hc

theorem char_at_length_le (in_buf : CStr) (i : Nat) (h : in_buf.length ≤ i) :
    char_at in_buf i = NUL := by
  rw [char_at, List.getD_eq_default _ _ h]

theorem scan_bounds (in_buf : CStr) :
    com_start in_buf ≤ (scan in_buf).pos_cmd
    ∧ (scan in_buf).pos_cmd + (scan in_buf).len_cmd ≤ in_buf.length
    ∧ (scan in_buf).pos_cmd ≤ (scan in_buf).pos_start
    ∧ (scan in_buf).pos_start ≤ in_buf.length := by
  have hc := com_start_le in_buf
  obtain ⟨hs1, hs2⟩ := skip_space_bounds (in_buf.drop (com_start in_buf)) (com_start in_buf)
  rw [← scan_pos_cmd] at hs1 hs2
  rw [List.length_drop] at hs2
  have hpn : (scan in_buf).pos_cmd ≤ in_buf.length := by omega
  have hlen := token_len_le (in_buf.drop (scan in_buf).pos_cmd) 0
  rw [← scan_len_cmd, List.length_drop] at hlen
  have hge := scan_back_ge in_buf (scan in_buf).pos_cmd in_buf.length hpn
  have hle := scan_back_le in_buf (scan in_buf).pos_cmd in_buf.length
  refine ⟨hs1, by omega, ?_, ?_⟩
  · rw [scan_pos_start]
    split <;> omega
  · rw [scan_pos_start]
    split
    · next hgt =>
      have hsp := scan_back_space in_buf _ _ hgt
      have hlt : scan_back in_buf (scan in_buf).pos_cmd in_buf.length < in_buf.length := by
        by_contra hnot
        rw [char_at_length_le in_buf _ (by omega), isspace_NUL] at hsp
        exact Bool.noConfusion hsp
      omega
    · exact hle

theorem dollar_base_lt (in_buf : CStr) (h : (scan in_buf).str_base.headD NUL = '$') :
    (scan in_buf).pos_start + 1 ≤ in_buf.length := by
  by_contra hnot
  rw [scan_str_base, List.drop_eq_nil_of_le (by omega)] at h
  exact absurd h (by decide)

/-- C16: the scan is a total function of the buffer, and for a buffer of length
`n` its offsets satisfy `comStart ≤ cmdStart ≤ cmdStart + cmdLen ≤ n` and
`cmdStart ≤ baseStart ≤ n`; whenever the scan does not abort,
`baseStart ≤ replacementStart ≤ n` and truncating the buffer at
`replacementStart` keeps exactly `replacementStart` characters; the step past a
leading `$` stays within `n` also when the scan then aborts. -/
theorem C16_scan_offsets_in_range (in_buf : CStr) :
    com_start in_buf ≤ (scan in_buf).pos_cmd
    ∧ (scan in_buf).pos_cmd ≤ (scan in_buf).pos_cmd + (scan in_buf).len_cmd
    ∧ (scan in_buf).pos_cmd + (scan in_buf).len_cmd ≤ in_buf.length
    ∧ (scan in_buf).pos_cmd ≤ (scan in_buf).pos_start
    ∧ (scan in_buf).pos_start ≤ in_buf.length
    ∧ ((scan in_buf).str_base.headD NUL = '$' → (scan in_buf).pos_start + 1 ≤ in_buf.length)
    ∧ (classify in_buf ≠ Context.abort →
        (scan in_buf).pos_start ≤ (classify in_buf).replacement_start
        ∧ (classify in_buf).replacement_start ≤ in_buf.length
        ∧ (in_buf.take (classify in_buf).replacement_start).length
            = (classify in_buf).replacement_start) := by
  obtain ⟨h1, h2, h3, h4⟩ := scan_bounds in_buf
  refine ⟨h1, Nat.le_add_right _ _, h2, h3, h4, dollar_base_lt in_buf, ?_⟩
  intro hctx
  have key : (scan in_buf).pos_start ≤ (classify in_buf).replacement_start
      ∧ (classify in_buf).replacement_start ≤ in_buf.length := by
    unfold classify classify_scan at hctx ⊢
    by_cases c1 : (scan in_buf).pos_start = (scan in_buf).pos_cmd ∧ (scan in_buf).len_cmd = 0
    · rw [if_pos c1] at hctx
      exact absurd rfl hctx
    · rw [if_neg c1] at hctx ⊢
      by_cases c2 : (scan in_buf).pos_start = (scan in_buf).pos_cmd
          ∧ (scan in_buf).str_cmd.headD NUL ≠ '$'
      · rw [if_pos c2]
        simp only [Context.replacement_start]
        omega
      · rw [if_neg c2] at hctx ⊢
        by_cases c3 : (scan in_buf).str_base.headD NUL = '$'
        · rw [if_pos c3] at hctx ⊢
          have hlt := dollar_base_lt in_buf c3
          by_cases c4 : ((scan in_buf).str_base.drop 1).headD NUL = NUL
          · simp only [c4, if_true] at hctx
            exact absurd rfl hctx
          · simp only [c4, if_false, Context.replacement_start]
            omega
        · rw [if_neg c3]
          simp only [Context.replacement_start]
          omega
  refine ⟨key.1, key.2, ?_⟩
  rw [List.length_take]
  exact Nat.min_eq_left key.2

/-- C16 at the unbalanced buffer `expr {[format %`. -/
theorem C16_scan_offsets_in_range_witness :
    classify "expr \x7b[format %".toList ≠ Context.abort
    ∧ (scan "expr \x7b[format %".toList).pos_start
        ≤ (classify "expr \x7b[format %".toList).replacement_start
    ∧ (classify "expr \x7b[format %".toList).replacement_start
        ≤ "expr \x7b[format %".toList.length
    ∧ ("expr \x7b[format %".toList.take
          (classify "expr \x7b[format %".toList).replacement_start).length
        = (classify "expr \x7b[format %".toList).replacement_start :=
  ⟨by decide,
    (C16_scan_offsets_in_range "expr \x7b[format %".toList).2.2.2.2.2.2 (by decide)⟩

/-! ## The seeded table -/

theorem candidates_subset_registered (tclln : tclln_data) (in_buf str_cmd str_base : CStr)
    (pos_start : Nat)
    (hctx : classify in_buf = Context.argument str_cmd str_base pos_start) :
    ∀ x, x ∈ g_list_sort
        (completion_generate { tclln with completion_begin := in_buf }).completion_list →
      x ∈ lookup_list tclln.completion_arg_table (lookup_key str_cmd) := by
  intro x hx
  have hx₂ := (g_list_sort_perm _).subset hx
  rw [completion_generate_argument tclln in_buf str_cmd str_base pos_start hctx] at hx₂
  simp only at hx₂
  rw [completion_generate_args_eq] at hx₂
  split at hx₂
  · simp at hx₂
  · exact (List.mem_filter.1 (List.mem_reverse.1 hx₂)).1

theorem add_rows_table (rows : List (CStr × List CStr)) (tclln : tclln_data) :
    (rows.foldl (fun tclln row => completion_table_add_command tclln row.1 row.2)
        tclln).completion_arg_table
      = rows.foldl
          (fun arg_table row => g_tree_insert arg_table row.1 (g_list_sort (prepend_all [] row.2)))
          tclln.completion_arg_table := by
  induction rows generalizing tclln with
  | nil => rfl
  | cons row rest ih =>
    rw [List.foldl_cons, List.foldl_cons, ih]
    rfl

theorem tclln_new_table (interp : Tcl_Interp) :
    (tclln_new interp).completion_arg_table = seeded_table := by
  unfold tclln_new completion_table_add_defaults seeded_table
  rw [add_rows_table]

/-- C17: `completion_table_add_defaults` registers `chan` twice; after seeding,
the entry of `chan` is the sorted second list, `clock` has no entry, and when
arguments of `chan` are completed every candidate comes from the second list,
so no subcommand that only the first list holds (such as `blocked`, `close`,
`configure`) is offered. -/
theorem C17_seeded_chan_collision (interp : Tcl_Interp) :
    (default_table.filter (fun row => decide (row.1 = "chan".toList))).length = 2
    ∧ g_tree_lookup (tclln_new interp).completion_arg_table "chan".toList
        = some (strs ["-base", "-format", "-gmt", "-locale", "-timezone", "add", "clicks",
            "format", "microseconds", "milliseconds", "scan", "seconds"])
    ∧ g_tree_lookup (tclln_new interp).completion_arg_table "clock".toList = none
    ∧ (∀ in_buf str_cmd str_base pos_start,
        classify in_buf = Context.argument str_cmd str_base pos_start →
        lookup_key str_cmd = "chan".toList →
        ∀ x, x ∈ (completion (some (tclln_new interp)) in_buf).2 →
          ∃ candidate, x = in_buf.take pos_start ++ candidate
            ∧ candidate ∈ strs ["-base", "-format", "-gmt", "-locale", "-timezone", "add",
                "clicks", "format", "microseconds", "milliseconds", "scan", "seconds"]
            ∧ candidate ∉ strs ["blocked", "close", "configure", "copy", "create", "current",
                "end", "eof", "event", "flush", "gets", "names", "pending", "pipe", "pop",
                "postevent", "push", "puts", "read", "seek", "start", "tell", "truncate",
                "-blocking", "-buffering", "-buffersize", "-encoding", "-eofchar", "-nonewline",
                "-translation"]) := by
  have hchan : g_tree_lookup (tclln_new interp).completion_arg_table "chan".toList
      = some (strs ["-base", "-format", "-gmt", "-locale", "-timezone", "add", "clicks",
          "format", "microseconds", "milliseconds", "scan", "seconds"]) := by
    rw [tclln_new_table]
    decide
  have hclock : g_tree_lookup (tclln_new interp).completion_arg_table "clock".toList = none := by
    rw [tclln_new_table]
    decide
  have hdisj : ∀ c, c ∈ strs ["-base", "-format", "-gmt", "-locale", "-timezone", "add",
      "clicks", "format", "microseconds", "milliseconds", "scan", "seconds"] →
      c ∉ strs ["blocked", "close", "configure", "copy", "create", "current",
        "end", "eof", "event", "flush", "gets", "names", "pending", "pipe", "pop",
        "postevent", "push", "puts", "read", "seek", "start", "tell", "truncate",
        "-blocking", "-buffering", "-buffersize", "-encoding", "-eofchar", "-nonewline",
        "-translation"] := by
    decide
  refine ⟨by decide, hchan, hclock, ?_⟩
  intro in_buf str_cmd str_base pos_start hctx hkey x hx
  have hab : classify in_buf ≠ Context.abort := by
    rw [hctx]
    exact fun h => Context.noConfusion h
  rw [completion_lines (tclln_new interp) in_buf hab, hctx] at hx
  obtain ⟨candidate, hc, rfl⟩ := List.mem_map.1 hx
  have hreg := candidates_subset_registered (tclln_new interp) in_buf str_cmd str_base pos_start
    hctx candidate hc
  rw [hkey, lookup_list, hchan, Option.getD_some] at hreg
  exact ⟨candidate, rfl, hreg, hdisj candidate hreg⟩

/-- C17 on the seeded session: completing `chan c` offers `clicks` alone, and
completing `chan bl` offers nothing. -/
theorem C17_seeded_chan_collision_witness :
    g_tree_lookup (tclln_new proc_interp).completion_arg_table "chan".toList
      = some (strs ["-base", "-format", "-gmt", "-locale", "-timezone", "add", "clicks",
          "format", "microseconds", "milliseconds", "scan", "seconds"])
    ∧ g_tree_lookup (tclln_new proc_interp).completion_arg_table "clock".toList = none
    ∧ (completion (some (tclln_new proc_interp)) "chan c".toList).2 = ["chan clicks".toList]
    ∧ (completion (some (tclln_new proc_interp)) "chan bl".toList).2 = [] :=
  ⟨(C17_seeded_chan_collision proc_interp).2.1, (C17_seeded_chan_collision proc_interp).2.2.1,
    by decide, by decide⟩

/-- C12 on the call that registers `foo` with `--b`, `--a`: the stored list is
`--a`, `--b`. -/
theorem C12_registry_keeps_multiplicity_witness :
    g_tree_lookup
        (completion_table_add_command (session_of []) "foo".toList
          (strs ["--b", "--a"])).completion_arg_table "foo".toList
      = some (strs ["--a", "--b"])
    ∧ (strs ["--a", "--b"]).Nodup := by
  have h := C12_registry_keeps_multiplicity (session_of []) "foo".toList (strs ["--b", "--a"])
  refine ⟨?_, by decide⟩
  rw [h.1]
  decide

/-! ## Registry frame -/

theorem completion_generate_table (tclln : tclln_data) :
    (completion_generate tclln).completion_arg_table = tclln.completion_arg_table := by
  unfold completion_generate
  cases h : classify tclln.completion_begin <;> simp only [h]

/-- C18: `completion_table_add_command` on `k` leaves the entry of every other
command as it was, and a completion request, whatever the buffer and whichever
generator runs (the argument lookup included), leaves the whole registry as it
was. -/
theorem C18_registry_frame (tclln : tclln_data) (k other : CStr) (args : List CStr)
    (hne : other ≠ k) :
    g_tree_lookup (completion_table_add_command tclln k args).completion_arg_table other
      = g_tree_lookup tclln.completion_arg_table other
    ∧ lookup_list (completion_table_add_command tclln k args).completion_arg_table other
      = lookup_list tclln.completion_arg_table other
    ∧ (∀ in_buf,
        (completion_generate { tclln with completion_begin := in_buf }).completion_arg_table
          = tclln.completion_arg_table)
    ∧ (∀ in_buf,
        (completion (some tclln) in_buf).1.map tclln_data.completion_arg_table
          = some tclln.completion_arg_table) := by
  have h : g_tree_lookup (completion_table_add_command tclln k args).completion_arg_table other
      = g_tree_lookup tclln.completion_arg_table other := by
    simp only [completion_table_add_command]
    exact g_tree_lookup_insert_other _ _ _ _ hne
  refine ⟨h, ?_, ?_, ?_⟩
  · rw [lookup_list, lookup_list, h]
  · intro in_buf
    exact completion_generate_table _
  · intro in_buf
    by_cases hnil : in_buf = []
    · subst hnil
      simp [completion, strcmp]
    · rw [completion_some tclln in_buf hnil]
      simp only [Option.map_some', completion_generate_table]

/-- C18 on the `string` registry: registering `foo` leaves the entry of `string`
as it was, and so does completing `string ma`. -/
theorem C18_registry_frame_witness :
    lookup_list
        (completion_table_add_command string_session "foo".toList
          ["bar".toList]).completion_arg_table "string".toList
      = ["length".toList, "map".toList, "match".toList]
    ∧ (completion (some string_session) "string ma".toList).1.map tclln_data.completion_arg_table
      = some string_session.completion_arg_table := by
  have h := C18_registry_frame string_session "foo".toList "string".toList ["bar".toList]
    (by decide)
  refine ⟨?_, h.2.2.2 _⟩
  rw [h.2.1]
  decide

end Tclln
